import Mathlib

/-!
Verification of the field-and-dependency extraction engine of the
tableautools repository (`extractDataFromTwb`, `extractDependencies`,
`analyzeDependencies`).

The JavaScript source is shallowly embedded as executable Lean functions:

* the parsed TWB document tree becomes `TwbTree` (a list of datasource
  elements, each holding attribute options and child column/param elements);
* DOM attribute access (`getAttribute`, which yields `null` for a missing
  attribute) becomes `Option String`;
* JavaScript truthiness of strings (`null`, `undefined` and `""` are falsy)
  is modeled by `jsOr` / `jsOrO` / `truthy`;
* the case-insensitive global regex replacement
  `formula.replace(new RegExp("\\[" ++ escaped ++ "\\]", "gi"), friendly)`
  is a case-insensitive, left-to-right, non-overlapping replacement of the
  literal bracketed token (the identifier is regex-escaped in the source,
  so the pattern matches nothing but the literal token, with no capture
  groups); it is embedded as `replFuel` over character lists, including the
  `GetSubstitution` handling of `$$`, `$&`, dollar-backquote and
  dollar-quote in the replacement string (`expandRepl`); case folding is
  ASCII (`lcc`); universally quantified theorems about the rewriter carry
  explicit ASCII hypotheses on the identifiers, since JavaScript's `i`
  flag additionally canonicalizes non-ASCII letters, which the model does
  not;
* `Array#sort` with a comparator is a stable sort (ES2019); both sorts of
  the source are embedded as stable insertion sorts by the comparator's
  weak order.
-/

/-- JavaScript `a || d` for a nullable string `a` and a string default `d`:
`null`/`""` are falsy. -/
def jsOr (a : Option String) (d : String) : String :=
  match a with
  | none => d
  | some s => if s = "" then d else s

/-- JavaScript `a || b` where both sides are nullable strings and the result
keeps the nullable value of `b` when `a` is falsy. -/
def jsOrO (a b : Option String) : Option String :=
  match a with
  | none => b
  | some s => if s = "" then b else some s

/-- JavaScript truthiness of a nullable string. -/
def truthy : Option String → Bool
  | none => false
  | some s => s ≠ ""

/-- JavaScript template interpolation of a nullable string:
`` `${x}` `` prints `null` as the four characters `"null"`. -/
def interpNull : Option String → String
  | none => "null"
  | some s => s

/-- ASCII lower-casing of one character: the effect of JavaScript
`toLowerCase` / the regex `i` flag on the ASCII range. -/
def lcc (c : Char) : Char :=
  match c with
  | 'A' => 'a' | 'B' => 'b' | 'C' => 'c' | 'D' => 'd' | 'E' => 'e' | 'F' => 'f'
  | 'G' => 'g' | 'H' => 'h' | 'I' => 'i' | 'J' => 'j' | 'K' => 'k' | 'L' => 'l'
  | 'M' => 'm' | 'N' => 'n' | 'O' => 'o' | 'P' => 'p' | 'Q' => 'q' | 'R' => 'r'
  | 'S' => 's' | 'T' => 't' | 'U' => 'u' | 'V' => 'v' | 'W' => 'w' | 'X' => 'x'
  | 'Y' => 'y' | 'Z' => 'z'
  | c => c

/-- ASCII lower-casing of a character list. -/
def lcL (l : List Char) : List Char := l.map lcc

/-- ASCII lower-casing of a string. -/
def lcStr (s : String) : String := String.mk (lcL s.data)

/-- One `<column>` element: the attributes the extractor reads, plus the
formula of an optional `<calculation>` child and the text of an optional
`<desc><formatted-text><run>` chain (both collapsed to the nullable value
the source ends up with). -/
structure ColumnElem where
  id : Option String
  name : Option String
  caption : Option String
  alias_ : Option String
  datatype : Option String
  defaultAggregation : Option String
  hidden : Option String
  semanticRole : Option String
  role : Option String
  typ : Option String
  calculation : Option String
  desc : Option String
  deriving DecidableEq

/-- A `<column>` element with every attribute missing. -/
def emptyColumn : ColumnElem :=
  ⟨none, none, none, none, none, none, none, none, none, none, none, none⟩

/-- One `<param>` element under a Parameters datasource. -/
structure ParamElem where
  name : Option String
  caption : Option String
  alias_ : Option String
  datatype : Option String
  deriving DecidableEq

/-- A `<param>` element with every attribute missing. -/
def emptyParam : ParamElem := ⟨none, none, none, none⟩

/-- One `<datasource>` element with its column and param children. -/
structure DatasourceElem where
  name : Option String
  caption : Option String
  columns : List ColumnElem
  params : List ParamElem
  deriving DecidableEq

/-- A parsed TWB document: the list of its `<datasource>` elements. -/
abbrev TwbTree := List DatasourceElem

/-- The field record built by the extractor.  Members keep the source's
names.  Members that a JavaScript record may lack (`undefined`) or hold
`null` in are `Option`s; the synthetic placeholder records of the graph
builder set `datasource` (and leave `datasource_name` absent, `none`). -/
structure FieldRecord where
  counter : Nat
  datasource_name : Option String
  datasource_caption : Option String
  datasource : Option String
  alias_ : Option String
  field_calculation : Option String
  field_calculation_bk : Option String
  field_caption : Option String
  field_datatype : Option String
  field_def_agg : Option String
  field_desc : Option String
  field_hidden : Bool
  field_id : String
  field_is_nominal : Bool
  field_is_ordinal : Bool
  field_is_quantitative : Bool
  field_name : Option String
  field_role : Option String
  field_type : Option String
  category : String
  deriving DecidableEq

/-- A directed dependency edge `{from, to}`.  Both ends carry the nullable
caption values the source stores (`analyzeDependencies` copies a possibly
null caption into `from`; the token-scan mode always has a string there). -/
structure Edge where
  efrom : Option String
  eto : Option String
  deriving DecidableEq

/-- Embeds the column loop body of `extractDataFromTwb` (source lines
28–81): attribute defaulting for id/name/caption, the calculation and
description lookup, and the three-way category assignment.  For a column
that is a direct child of its datasource the `col.parentElement` disjunct
of the category test (line 69) coincides with `isParameterDs`. -/
def collectColumn (dsName dsCaption : String) (isParamDs : Bool) (counter : Nat)
    (col : ColumnElem) : FieldRecord :=
  let fieldId := jsOr col.id ("[" ++ jsOr col.name ("col_" ++ toString counter) ++ "]")
  let fieldName := jsOr col.name fieldId
  let fieldCaption := jsOr col.caption fieldName
  { counter := counter
    datasource_name := some dsName
    datasource_caption := some dsCaption
    datasource := none
    alias_ := col.alias_
    field_calculation := col.calculation
    field_calculation_bk := col.calculation
    field_caption := some fieldCaption
    field_datatype := col.datatype
    field_def_agg := col.defaultAggregation
    field_desc := col.desc
    field_hidden := col.hidden == some "true"
    field_id := fieldId
    field_is_nominal := col.semanticRole == some "[Nominal]"
    field_is_ordinal := col.semanticRole == some "[Ordinal]"
    field_is_quantitative := col.semanticRole == some "[Measure]"
    field_name := some fieldName
    field_role := col.role
    field_type := col.typ
    category := if isParamDs then "Parameters"
                else if col.calculation.isSome then "Calculated_Field"
                else "Default_Field" }

/-- Embeds the `<param>` record construction of `extractDataFromTwb`
(source lines 91–107). -/
def collectParam (dsName dsCaption : String) (counter : Nat)
    (p : ParamElem) : FieldRecord :=
  { counter := counter
    datasource_name := some dsName
    datasource_caption := some dsCaption
    datasource := none
    alias_ := p.alias_
    field_calculation := none
    field_calculation_bk := none
    field_caption := jsOrO p.caption p.name
    field_datatype := p.datatype
    field_def_agg := none
    field_desc := none
    field_hidden := false
    field_id := "[" ++ interpNull p.name ++ "]"
    field_is_nominal := false
    field_is_ordinal := false
    field_is_quantitative := false
    field_name := p.name
    field_role := some "parameter"
    field_type := some "quantitative"
    category := "Parameters" }

/-- The column loop of one datasource, threading the accumulated field list
and the module counter. -/
def collectColumns (dsName dsCaption : String) (isP : Bool) :
    List ColumnElem → List FieldRecord → Nat → List FieldRecord × Nat
  | [], acc, c => (acc, c)
  | col :: rest, acc, c =>
      collectColumns dsName dsCaption isP rest
        (acc ++ [collectColumn dsName dsCaption isP c col]) (c + 1)

/-- The `<param>` loop of one Parameters datasource: a param is added only
when no record with the same id and datasource name exactly `"Parameters"`
exists yet (source lines 86–109); the counter advances only on insertion. -/
def collectParams (dsName dsCaption : String) :
    List ParamElem → List FieldRecord → Nat → List FieldRecord × Nat
  | [], acc, c => (acc, c)
  | p :: rest, acc, c =>
      let fid := "[" ++ interpNull p.name ++ "]"
      if acc.any (fun f => f.field_id == fid && f.datasource_name == some "Parameters")
      then collectParams dsName dsCaption rest acc c
      else collectParams dsName dsCaption rest
        (acc ++ [collectParam dsName dsCaption c p]) (c + 1)

/-- One datasource of the collection walk (source lines 20–111): name and
caption defaulting, the case-insensitive Parameters test, the column loop,
and — only for a Parameters datasource — the param loop. -/
def collectDatasource (ds : DatasourceElem) (acc : List FieldRecord) (c : Nat) :
    List FieldRecord × Nat :=
  let dsName := jsOr ds.name "Unknown Datasource"
  let dsCaption := jsOr ds.caption dsName
  let isP := lcStr dsName == "parameters"
  let r := collectColumns dsName dsCaption isP ds.columns acc c
  if isP then collectParams dsName dsCaption ds.params r.1 r.2 else r

/-- The whole collection pass: all datasources, starting from an empty list
and counter `0`.  Returns the raw field list and the final counter. -/
def collectFields (t : TwbTree) : List FieldRecord × Nat :=
  t.foldl (fun st ds => collectDatasource ds st.1 st.2) ([], 0)

/-- The raw (pre-deduplication, pre-rewrite) field records of a tree. -/
def rawFields (t : TwbTree) : List FieldRecord := (collectFields t).1

/-- The value of the module counter after collection. -/
def rawCounter (t : TwbTree) : Nat := (collectFields t).2

/-- `field_id` with every `[` and `]` removed —
`field.field_id.replace(/[\[\]]/g, '')` (source line 119). -/
def stripBrackets (s : String) : String :=
  String.mk (s.data.filter (fun c => !(c == '[' || c == ']')))

/-- The friendly name `` `[${field.field_caption || field.field_name}]` ``
(source line 120). -/
def friendlyName (f : FieldRecord) : String :=
  "[" ++ interpNull (jsOrO f.field_caption f.field_name) ++ "]"

/-- JavaScript `Map.prototype.set`: overwriting an existing key keeps its
insertion position; a new key appends. -/
def mapSet (m : List (String × String)) (k v : String) : List (String × String) :=
  if m.any (fun p => p.1 == k) then m.map (fun p => if p.1 == k then (k, v) else p)
  else m ++ [(k, v)]

/-- JavaScript `Map.prototype.has`. -/
def mapHas (m : List (String × String)) (k : String) : Bool :=
  m.any (fun p => p.1 == k)

/-- JavaScript `Map.prototype.get` (`none` for a missing key). -/
def mapGet (m : List (String × String)) (k : String) : Option String :=
  (m.find? (fun p => p.1 == k)).map (fun p => p.2)

/-- The `calcMapRaw` construction (source lines 116–127): calculated fields
and parameters always claim the slot of their bracket-stripped id; a default
field claims it only when still free. -/
def buildCalcMap (fields : List FieldRecord) : List (String × String) :=
  fields.foldl (fun m f =>
    let cleanId := stripBrackets f.field_id
    let friendly := friendlyName f
    if f.category == "Calculated_Field" || f.category == "Parameters" then
      mapSet m cleanId friendly
    else if mapHas m cleanId then m
    else mapSet m cleanId friendly) []

/-- The replacement-template expansion of `String.prototype.replace`
(ECMA-262 `GetSubstitution`) for a regex without capture groups: `$$` is a
literal dollar, `$&` the matched text, dollar-backquote (`$` then `\x60`)
the part of the subject before the match, dollar-quote (`$` then `\x27`)
the part after it; every other `$` (including `$1`–`$9`, whose captures do
not exist here, and `$<`, with no named groups) is literal. -/
def expandRepl (matched before after : List Char) : List Char → List Char
  | [] => []
  | c :: rest =>
      if c = '$' then
        match rest with
        | [] => ['$']
        | c2 :: rest2 =>
            if c2 = '$' then '$' :: expandRepl matched before after rest2
            else if c2 = '&' then matched ++ expandRepl matched before after rest2
            else if c2 = '\x60' then before ++ expandRepl matched before after rest2
            else if c2 = '\x27' then after ++ expandRepl matched before after rest2
            else '$' :: expandRepl matched before after (c2 :: rest2)
      else c :: expandRepl matched before after rest

/-- Fuel-structured core of the global, case-insensitive replacement of a
literal pattern: scan left to right; on a (lower-cased) match of `pat`
emit the `GetSubstitution` expansion of `rep` (against the matched span,
the already-consumed prefix `done` of the original subject, and the rest)
and resume after the matched span; otherwise copy one character.  The fuel
only makes the recursion structural; `fuel ≥ s.length` always holds at the
call sites. -/
def replFuel (pat rep : List Char) (fuel : Nat) (done s : List Char) : List Char :=
  match s, fuel with
  | [], _ => []
  | c :: cs, 0 => c :: cs
  | c :: cs, fuel + 1 =>
      if (lcL pat).isPrefixOf (lcL (c :: cs)) then
        expandRepl (c :: cs.take (pat.length - 1)) done (cs.drop (pat.length - 1)) rep ++
          replFuel pat rep fuel (done ++ c :: cs.take (pat.length - 1))
            (cs.drop (pat.length - 1))
      else c :: replFuel pat rep fuel (done ++ [c]) cs

/-- `s.replace(new RegExp(escapedPattern, "gi"), rep)` for the literal
pattern `pat`: global, case-insensitive, non-overlapping, left-to-right,
the replacement text expanded per `GetSubstitution` and never rescanned. -/
def replaceCI (s pat rep : String) : String :=
  String.mk (replFuel pat.data rep.data s.data.length [] s.data)

/-- Stable insertion of a string into a length-descending list: used from
the right, an earlier key lands before later keys of the same length. -/
def insertLen (x : String) : List String → List String
  | [] => [x]
  | y :: ys => if y.length ≤ x.length then x :: y :: ys else y :: insertLen x ys

/-- `Array.from(calcMapRaw.keys()).sort((a, b) => b.length - a.length)`:
stable sort by descending key length (source line 136). -/
def sortKeysDesc (l : List String) : List String := l.foldr insertLen []

/-- One key's replacement step of the rewriter (source lines 138–148),
including the truthiness guard on the looked-up friendly name. -/
def rewriteStep (m : List (String × String)) (acc : String) (k : String) : String :=
  match mapGet m k with
  | some rep => if rep = "" then acc else replaceCI acc ("[" ++ k ++ "]") rep
  | none => acc

/-- The Formula Rewriter (source lines 130–151) applied to one formula:
fold the per-key replacement over the keys sorted longest first. -/
def rewriteFormula (m : List (String × String)) (f : String) : String :=
  (sortKeysDesc (m.map (fun p => p.1))).foldl (rewriteStep m) f

/-- The rewriter applied to one record: only a record with a truthy
`field_calculation` is touched, and only that member changes. -/
def rewriteField (m : List (String × String)) (f : FieldRecord) : FieldRecord :=
  match f.field_calculation with
  | some s => if s = "" then f else { f with field_calculation := some (rewriteFormula m s) }
  | none => f

/-- Stable insertion sort by a boolean weak order `le` (`le a b` means the
comparator does not require `b` before `a`): the embedding of
`Array#sort`, stable since ES2019.  `insertCmp` walks past every element
that may stay before `x`, so a later-inserted `x` lands after its ties. -/
def insertCmp (le : FieldRecord → FieldRecord → Bool) (x : FieldRecord) :
    List FieldRecord → List FieldRecord
  | [] => [x]
  | y :: ys => if le y x then y :: insertCmp le x ys else x :: y :: ys

/-- Stable sort: left fold of stable insertion. -/
def sortCmp (le : FieldRecord → FieldRecord → Bool) (l : List FieldRecord) :
    List FieldRecord :=
  l.foldl (fun acc x => insertCmp le x acc) []

/-- Rank of the deduplication sort (source lines 160–163): records whose
`datasource_name` is exactly `"Parameters"` first. -/
def paramRank (f : FieldRecord) : Nat :=
  if f.datasource_name = some "Parameters" then 0 else 1

/-- The deduplication comparator: Parameters-datasource records first,
otherwise by `counter`. -/
def dedupLe (a b : FieldRecord) : Bool :=
  decide (paramRank a < paramRank b ∨ (paramRank a = paramRank b ∧ a.counter ≤ b.counter))

/-- Keep the first record per `field_id` (source lines 165–172), with the
set of already-seen ids made explicit. -/
def dedupGo (seen : List String) : List FieldRecord → List FieldRecord
  | [] => []
  | f :: fs =>
      if f.field_id ∈ seen then dedupGo seen fs
      else f :: dedupGo (f.field_id :: seen) fs

/-- Category rank of the presentation sort (source lines 176–180):
`preferenceOrder.indexOf`, `-1` for a category outside the list. -/
def catRank (f : FieldRecord) : Int :=
  if f.category = "Parameters" then 0
  else if f.category = "Calculated_Field" then 1
  else if f.category = "Default_Field" then 2
  else -1

/-- Lexicographic order on character lists by code point: JavaScript `<`
on strings (code-unit order; identical on the basic plane). -/
def ltCharList : List Char → List Char → Bool
  | [], [] => false
  | [], _ :: _ => true
  | _ :: _, [] => false
  | a :: as, b :: bs =>
      if a.toNat < b.toNat then true
      else if b.toNat < a.toNat then false
      else ltCharList as bs

/-- JavaScript `<` between a string and a possibly-null string: with a
`null` operand both `a < b` and `b < a` are false (NaN comparison), so
`null` ties with everything. -/
def ltOptStr (a b : Option String) : Bool :=
  match a, b with
  | some x, some y => ltCharList x.data y.data
  | _, _ => false

/-- The presentation comparator (source lines 177–191): category rank,
then datasource caption, then field name, then `counter`. -/
def presLe (a b : FieldRecord) : Bool :=
  if catRank a ≠ catRank b then decide (catRank a < catRank b)
  else if ltOptStr a.datasource_caption b.datasource_caption then true
  else if ltOptStr b.datasource_caption a.datasource_caption then false
  else if ltOptStr a.field_name b.field_name then true
  else if ltOptStr b.field_name a.field_name then false
  else decide (a.counter ≤ b.counter)

/-- Fuel-structured token scan embedding `/\[([^\]]+)\]/g` (source line
203): at a `[`, a maximal nonempty run of non-`]` characters closed by `]`
is a token; otherwise advance one character. -/
def tokensFuel : Nat → List Char → List String
  | _, [] => []
  | 0, _ => []
  | fuel + 1, c :: cs =>
      if c = '[' then
        let run := cs.takeWhile (fun ch => !(ch == ']'))
        if run.length > 0 ∧ run.length < cs.length then
          String.mk run :: tokensFuel fuel (cs.drop (run.length + 1))
        else tokensFuel fuel cs
      else tokensFuel fuel cs

/-- All bracketed tokens of a formula, in order. -/
def extractTokens (s : String) : List String :=
  tokensFuel s.data.length s.data

/-- The edges contributed by one record (source lines 200–219): tokens of
its truthy rewritten formula, minus self-references by caption, each
pointing at the record's caption. -/
def relsOf (f : FieldRecord) : List Edge :=
  match f.field_calculation with
  | some s =>
      if s = "" then []
      else ((extractTokens s).filter (fun d => ¬ some d = f.field_caption)).map
        (fun d => ⟨some d, f.field_caption⟩)
  | none => []

/-- Builds a synthetic placeholder record for a referenced-but-undefined
name (source lines 226–234); `nm` is the edge's `from` value, possibly
null in general (the pipeline only ever passes strings). -/
def syntheticRec (nm : Option String) (c : Nat) : FieldRecord :=
  { counter := c
    datasource_name := none
    datasource_caption := some "Unknown"
    datasource := some "Unknown"
    alias_ := none
    field_calculation := none
    field_calculation_bk := none
    field_caption := nm
    field_datatype := none
    field_def_agg := none
    field_desc := none
    field_hidden := false
    field_id := "[" ++ interpNull nm ++ "]"
    field_is_nominal := false
    field_is_ordinal := false
    field_is_quantitative := false
    field_name := nm
    field_role := none
    field_type := none
    category := "Default_Field" }

/-- The closure loop (source lines 221–237): for each edge whose `from` is
not the caption of any field so far, append a synthetic placeholder and
advance the counter.  The caption-set of the source is kept in sync with
the field list, so membership is tested on the list directly. -/
def closureGo : List FieldRecord → Nat → List Edge → List FieldRecord × Nat
  | fs, c, [] => (fs, c)
  | fs, c, rel :: rest =>
      if fs.any (fun f => f.field_caption == rel.efrom) then closureGo fs c rest
      else closureGo (fs ++ [syntheticRec rel.efrom c]) (c + 1) rest

/-- The rewritten raw field list (the in-place formula rewrite of the
source, lines 130–151). -/
def rewrittenFields (t : TwbTree) : List FieldRecord :=
  (rawFields t).map (rewriteField (buildCalcMap (rawFields t)))

/-- The deduplicated field list: Parameters-first stable sort, then keep
the first record per id (source lines 153–172). -/
def dedupFields (t : TwbTree) : List FieldRecord :=
  dedupGo [] (sortCmp dedupLe (rewrittenFields t))

/-- The deduplicated list in presentation order (source lines 175–191):
the `uniqueFields` array right before graph construction. -/
def uniqueSorted (t : TwbTree) : List FieldRecord :=
  sortCmp presLe (dedupFields t)

/-- The full output `{ fields, calcs, relationships }`. -/
structure ExtractOutput where
  fields : List FieldRecord
  calcs : List FieldRecord
  relationships : List Edge
  deriving DecidableEq

/-- The embedding of `extractDataFromTwb` (source lines 13–245). -/
def extractDataFromTwb (t : TwbTree) : ExtractOutput :=
  let u := uniqueSorted t
  let calcs := u.filter (fun f => f.category == "Calculated_Field" || f.category == "Parameters")
  let rels := (u.map relsOf).flatten
  { fields := (closureGo u (rawCounter t) rels).1
    calcs := calcs
    relationships := rels }

/-- The standalone token-scan extractor (source lines 252–278): the same
per-record edge generation as the pipeline, over a given field array. -/
def extractDependencies (fields : List FieldRecord) : List Edge :=
  (fields.map relsOf).flatten

/-- `field_id` with one leading `[` and one trailing `]` stripped when both
are present (source lines 308–311). -/
def stripOuter (s : String) : String :=
  match s.data with
  | [] => s
  | l@(c :: _) =>
      if c = '[' ∧ l.getLast? = some ']' then String.mk (l.drop 1).dropLast
      else s

/-- `new RegExp("\\[" ++ escapedIdentifier ++ "\\]", "gi").test(formula)`:
case-insensitive containment of the literal bracketed identifier. -/
def occursTokCI (core formula : String) : Bool :=
  decide (lcL ("[" ++ core ++ "]").data <:+: lcL formula.data)

/-- The embedding of `analyzeDependencies` (source lines 286–331): for each
calc with a truthy original formula, every other field whose
bracket-stripped id occurs as a bracketed token of that original formula
contributes an edge from its caption. -/
def analyzeDependencies (fields calcs : List FieldRecord) : List Edge :=
  (calcs.map (fun target =>
    match target.field_calculation_bk with
    | none => []
    | some orig =>
        if orig = "" then []
        else (fields.filter (fun src =>
            if src.field_id = target.field_id then false
            else occursTokCI (stripOuter src.field_id) orig)).map
          (fun src => ⟨src.field_caption, target.field_caption⟩))).flatten

/-- Column builder for the concrete test trees: id, name, caption, formula
attributes set, every other attribute missing. -/
def mkCol (i n cap cal : Option String) : ColumnElem :=
  { emptyColumn with id := i, name := n, caption := cap, calculation := cal }

/-- Scenario A of the specification: one datasource `Sales` with columns
`[Sales]`, `[Cost]` (plain) and `[Profit Ratio]` with formula
`[Sales]/[Cost]`. -/
def scenarioA : TwbTree :=
  [⟨some "Sales", none,
    [mkCol (some "[Sales]") none (some "Sales") none,
     mkCol (some "[Cost]") none (some "Cost") none,
     mkCol (some "[Profit Ratio]") none (some "Profit Ratio") (some "[Sales]/[Cost]")], []⟩]

/-- Scenario B of the specification: a `Parameters` datasource with a param
`Threshold`, and a `Sales` datasource with a same-id plain column. -/
def scenarioB : TwbTree :=
  [⟨some "Parameters", none, [], [⟨some "Threshold", none, none, none⟩]⟩,
   ⟨some "Sales", none, [mkCol (some "[Threshold]") none (some "Threshold") none], []⟩]

/-- Scenario C of the specification: a formula referencing the undeclared
identifier `External Metric`. -/
def scenarioC : TwbTree :=
  [⟨some "Sales", none,
    [mkCol (some "[M]") none (some "M") (some "[External Metric]*2")], []⟩]

/-- Input showing a synthetic placeholder can duplicate an existing id:
a caption containing `]` makes the rewriter introduce the stray token `[x]`
whose synthesized id collides with the declared field `[x]`. -/
def treeDupId : TwbTree :=
  [⟨some "DS", none,
    [mkCol (some "[x]") none (some "xcap") none,
     mkCol (some "[w]") none (some "x]z") none,
     mkCol (some "[C]") none (some "C") (some "[w]")], []⟩]

/-- Input on which the two dependency-extraction strategies disagree: the
ids `[A]` and `A` share the bracket-stripped identifier `A`, the calculated
record claims the friendly-name slot, so the rewritten formula references
only `Pcap` while the original formula `[A]` id-matches both fields. -/
def treeDiverge : TwbTree :=
  [⟨some "D", none,
    [mkCol (some "[A]") none (some "Acap") none,
     mkCol (some "A") none (some "Pcap") (some "1"),
     mkCol (some "[F]") none (some "F") (some "[A]")], []⟩]

/-- Input with a lower-case `parameters` datasource sharing an id with an
earlier plain datasource column. -/
def treeLowerParams : TwbTree :=
  [⟨some "Sales", none, [mkCol (some "[T]") none (some "T") none], []⟩,
   ⟨some "parameters", none, [mkCol (some "[T]") none (some "T2") none], []⟩]

/-- A tree whose elements carry no attributes at all (plus a named
Parameters datasource so its attribute-less param element is reached). -/
def bareTree : TwbTree :=
  [⟨none, none, [emptyColumn], [emptyParam]⟩,
   ⟨some "Parameters", none, [emptyColumn], [emptyParam]⟩]

/-- The rewriter map refuting idempotence: the friendly name of `A` is the
token `[B]`, itself a mapped identifier that an earlier pass position has
already gone past. -/
def cexMap : List (String × String) := [("B", "[Z]"), ("A", "[B]")]

/-- Maps refuting the unconditional longest-match claim.  `cexDollarMap`
maps `Sales Amount` to a friendly name containing the `GetSubstitution`
pattern dollar-ampersand, which `String.replace` expands to the matched
text. -/
def cexDollarMap : List (String × String) :=
  [("Sales", "[Rev]"), ("Sales Amount", "[a$&b]")]

/-- A map with a second key that equals `Sales Amount` only by case: the
earlier-inserted case variant wins the (stable, equal-length) sorted key
order and replaces the token with its own friendly name. -/
def cexDupMap : List (String × String) :=
  [("SALES AMOUNT", "[X]"), ("Sales", "[Rev]"), ("Sales Amount", "[Amt]")]

/-- A map with a longer, bracket-containing identifier whose pattern
consumes the `[Sales Amount]` token as a part of a longer match. -/
def cexBracketKeyMap : List (String × String) :=
  [("Sales", "[Rev]"), ("Sales Amount", "[Amt]"), ("Sales Amount]x", "[Y]")]

/-- A map whose `Sales Amount` friendly name is itself the `Sales` token,
so the later `Sales` step rewrites the substituted text further. -/
def cexChainMap : List (String × String) :=
  [("Sales", "[Rev]"), ("Sales Amount", "[Sales]")]

/-- A record with its `field_calculation` cleared: equality under
`eraseCalc` says two records agree in every other member. -/
def eraseCalc (r : FieldRecord) : FieldRecord := { r with field_calculation := none }

/-- No bracket characters in a character list (the shape of a canonical,
bracket-stripped identifier). -/
def NoBrkL (l : List Char) : Prop := ∀ c ∈ l, c ≠ '[' ∧ c ≠ ']'

/-- No bracket characters in a string. -/
def NoBrkS (s : String) : Prop := NoBrkL s.data

instance noBrkL_decidable (l : List Char) : Decidable (NoBrkL l) :=
  inferInstanceAs (Decidable (∀ c ∈ l, c ≠ '[' ∧ c ≠ ']'))

instance noBrkS_decidable (s : String) : Decidable (NoBrkS s) :=
  inferInstanceAs (Decidable (NoBrkL s.data))

/-- Every character of the string is ASCII.  On such identifiers the
model's ASCII case folding agrees with JavaScript's `i`-flag
canonicalization (which never matches an ASCII character against a
non-ASCII one). -/
def AsciiS (s : String) : Prop := ∀ c ∈ s.data, c.toNat < 128

instance asciiS_decidable (s : String) : Decidable (AsciiS s) :=
  inferInstanceAs (Decidable (∀ c ∈ s.data, c.toNat < 128))

/-- The string contains no dollar character, so it passes through the
`GetSubstitution` expansion of a replacement string unchanged. -/
def NoDollarS (s : String) : Prop := ∀ c ∈ s.data, c ≠ '$'

instance noDollarS_decidable (s : String) : Decidable (NoDollarS s) :=
  inferInstanceAs (Decidable (∀ c ∈ s.data, c ≠ '$'))

/-- The lowered bracketed-token pattern of an identifier, as a character
list: what the rewriter's case-insensitive regex matches. -/
def tokLow (k : String) : List Char := '[' :: lcL k.data ++ [']']

/-- The identifier `k` occurs as a bracketed token of `s`, case
insensitively. -/
def OccTok (k s : String) : Prop := tokLow k <:+: lcL s.data

/-- A map is inert when every key is a bracket-free ASCII identifier and
every value is a single well-formed, dollar-free bracketed token whose
interior is not, case-insensitively, one of the map's keys.  (ASCII keys
keep the model's case folding faithful to the `i` flag; dollar-free values
pass through `GetSubstitution` literally.) -/
def InertMap (m : List (String × String)) : Prop :=
  ∀ p ∈ m, NoBrkS p.1 ∧ AsciiS p.1 ∧
    ∃ c, p.2 = "[" ++ c ++ "]" ∧ NoBrkS c ∧ NoDollarS p.2 ∧
      ∀ q ∈ m, lcL c.data ≠ lcL q.1.data

/-- The final Profit-Ratio record of Scenario A (used as a concrete
witness record). -/
def profitRatioField : FieldRecord :=
  ⟨2, some "Sales", some "Sales", none, none, some "[Sales]/[Cost]",
   some "[Sales]/[Cost]", some "Profit Ratio", none, none, none, false,
   "[Profit Ratio]", false, false, false, some "[Profit Ratio]", none, none,
   "Calculated_Field"⟩

/-- Membership in a stable insertion. -/
theorem mem_insertCmp (le : FieldRecord → FieldRecord → Bool) (x : FieldRecord)
    (l : List FieldRecord) (y : FieldRecord) :
    y ∈ insertCmp le x l ↔ y = x ∨ y ∈ l := by
  induction l with
  | nil => simp [insertCmp]
  | cons a as ih =>
      simp only [insertCmp]
      split
      · rw [List.mem_cons, ih, List.mem_cons]
        tauto
      · exact List.mem_cons

/-- A stable insertion permutes consing. -/
theorem insertCmp_perm (le : FieldRecord → FieldRecord → Bool) (x : FieldRecord)
    (l : List FieldRecord) : (insertCmp le x l).Perm (x :: l) := by
  induction l with
  | nil => simp [insertCmp]
  | cons a as ih =>
      simp only [insertCmp]
      split
      · exact (ih.cons a).trans (List.Perm.swap x a as)
      · exact List.Perm.refl _

theorem sortCmp_aux_perm (le : FieldRecord → FieldRecord → Bool) :
    ∀ (l acc : List FieldRecord),
      (l.foldl (fun acc x => insertCmp le x acc) acc).Perm (acc ++ l)
  | [], acc => by simp
  | x :: xs, acc => by
      have h1 := sortCmp_aux_perm le xs (insertCmp le x acc)
      have h2 : (insertCmp le x acc ++ xs).Perm (acc ++ x :: xs) :=
        ((insertCmp_perm le x acc).append_right xs).trans List.perm_middle.symm
      exact h1.trans h2

/-- `sortCmp` permutes its input. -/
theorem sortCmp_perm (le : FieldRecord → FieldRecord → Bool) (l : List FieldRecord) :
    (sortCmp le l).Perm l := by
  simpa [sortCmp] using sortCmp_aux_perm le l []

/-- Membership is preserved by `sortCmp`. -/
theorem mem_sortCmp (le : FieldRecord → FieldRecord → Bool) (l : List FieldRecord)
    (x : FieldRecord) : x ∈ sortCmp le l ↔ x ∈ l :=
  (sortCmp_perm le l).mem_iff

/-- Stable insertion preserves sortedness of a total transitive comparator. -/
theorem pairwise_insertCmp (le : FieldRecord → FieldRecord → Bool)
    (htot : ∀ a b, le a b = true ∨ le b a = true)
    (htrans : ∀ a b c, le a b = true → le b c = true → le a c = true)
    (x : FieldRecord) (l : List FieldRecord)
    (h : List.Pairwise (fun a b => le a b = true) l) :
    List.Pairwise (fun a b => le a b = true) (insertCmp le x l) := by
  induction l with
  | nil => simp [insertCmp]
  | cons a as ih =>
      rw [List.pairwise_cons] at h
      obtain ⟨ha, has⟩ := h
      simp only [insertCmp]
      by_cases hle : le a x = true
      · rw [if_pos hle]
        rw [List.pairwise_cons]
        refine ⟨fun y hy => ?_, ih has⟩
        rcases (mem_insertCmp le x as y).mp hy with rfl | hy
        · exact hle
        · exact ha y hy
      · rw [if_neg hle]
        have hxa : le x a = true := (htot x a).resolve_right hle
        rw [List.pairwise_cons]
        refine ⟨fun y hy => ?_, List.pairwise_cons.mpr ⟨ha, has⟩⟩
        rcases List.mem_cons.mp hy with rfl | hy
        · exact hxa
        · exact htrans x a y hxa (ha y hy)

theorem sortCmp_aux_pairwise (le : FieldRecord → FieldRecord → Bool)
    (htot : ∀ a b, le a b = true ∨ le b a = true)
    (htrans : ∀ a b c, le a b = true → le b c = true → le a c = true) :
    ∀ (l acc : List FieldRecord), List.Pairwise (fun a b => le a b = true) acc →
      List.Pairwise (fun a b => le a b = true)
        (l.foldl (fun acc x => insertCmp le x acc) acc)
  | [], _, h => h
  | x :: xs, acc, h =>
      sortCmp_aux_pairwise le htot htrans xs (insertCmp le x acc)
        (pairwise_insertCmp le htot htrans x acc h)

/-- The result of `sortCmp` is sorted for a total transitive comparator. -/
theorem pairwise_sortCmp (le : FieldRecord → FieldRecord → Bool)
    (htot : ∀ a b, le a b = true ∨ le b a = true)
    (htrans : ∀ a b c, le a b = true → le b c = true → le a c = true)
    (l : List FieldRecord) :
    List.Pairwise (fun a b => le a b = true) (sortCmp le l) :=
  sortCmp_aux_pairwise le htot htrans l [] (by simp)

/-- Inserting an element the comparator puts after everything appends it. -/
theorem insertCmp_append (le : FieldRecord → FieldRecord → Bool) (x : FieldRecord)
    (l : List FieldRecord) (h : ∀ y ∈ l, le y x = true) :
    insertCmp le x l = l ++ [x] := by
  induction l with
  | nil => rfl
  | cons a as ih =>
      simp only [insertCmp]
      rw [if_pos (h a (List.mem_cons_self a as))]
      rw [ih (fun y hy => h y (List.mem_cons_of_mem a hy))]
      rfl

theorem sortCmp_aux_eq_self (le : FieldRecord → FieldRecord → Bool) :
    ∀ (l acc : List FieldRecord),
      (∀ a ∈ acc, ∀ z ∈ l, le a z = true) →
      List.Pairwise (fun a b => le a b = true) l →
      l.foldl (fun acc x => insertCmp le x acc) acc = acc ++ l
  | [], acc, _, _ => by simp
  | x :: xs, acc, hcross, hp => by
      have hx : insertCmp le x acc = acc ++ [x] :=
        insertCmp_append le x acc (fun y hy => hcross y hy x (List.mem_cons_self x xs))
      rw [List.pairwise_cons] at hp
      obtain ⟨hhead, htail⟩ := hp
      have := sortCmp_aux_eq_self le xs (acc ++ [x])
        (fun a ha z hz => by
          rcases List.mem_append.mp ha with ha | ha
          · exact hcross a ha z (List.mem_cons_of_mem x hz)
          · rcases List.mem_singleton.mp ha with rfl
            exact hhead z hz) htail
      simp only [List.foldl_cons, hx, this, List.append_assoc, List.singleton_append]

/-- Sorting an already sorted list is the identity. -/
theorem sortCmp_eq_self (le : FieldRecord → FieldRecord → Bool) (l : List FieldRecord)
    (h : List.Pairwise (fun a b => le a b = true) l) : sortCmp le l = l := by
  have := sortCmp_aux_eq_self le l [] (by simp) h
  simpa [sortCmp] using this

/-- Unfolding of the deduplication comparator. -/
theorem dedupLe_iff (a b : FieldRecord) :
    dedupLe a b = true ↔
      (paramRank a < paramRank b ∨ (paramRank a = paramRank b ∧ a.counter ≤ b.counter)) := by
  simp [dedupLe]

/-- The deduplication comparator is total. -/
theorem dedupLe_total (a b : FieldRecord) : dedupLe a b = true ∨ dedupLe b a = true := by
  rw [dedupLe_iff, dedupLe_iff]
  omega

/-- The deduplication comparator is transitive. -/
theorem dedupLe_trans (a b c : FieldRecord) (h1 : dedupLe a b = true)
    (h2 : dedupLe b c = true) : dedupLe a c = true := by
  rw [dedupLe_iff] at h1 h2 ⊢
  omega

/-- The deduplication comparator never moves a record in front of one with
a smaller Parameters rank. -/
theorem dedupLe_rank (a b : FieldRecord) (h : dedupLe a b = true) :
    paramRank a ≤ paramRank b := by
  rw [dedupLe_iff] at h
  omega

/-- Every record kept by the first-per-id filter comes from the input. -/
theorem dedupGo_subset (seen : List String) (l : List FieldRecord) (r : FieldRecord)
    (h : r ∈ dedupGo seen l) : r ∈ l := by
  induction l generalizing seen with
  | nil => simp [dedupGo] at h
  | cons f fs ih =>
      simp only [dedupGo] at h
      split at h
      · exact List.mem_cons_of_mem f (ih seen h)
      · rcases List.mem_cons.mp h with rfl | h
        · exact List.mem_cons_self _ _
        · exact List.mem_cons_of_mem f (ih _ h)

/-- A record kept by the first-per-id filter has an unseen id. -/
theorem dedupGo_not_seen (seen : List String) (l : List FieldRecord) (r : FieldRecord)
    (h : r ∈ dedupGo seen l) : r.field_id ∉ seen := by
  induction l generalizing seen with
  | nil => simp [dedupGo] at h
  | cons f fs ih =>
      simp only [dedupGo] at h
      split at h
      · exact ih seen h
      · rcases List.mem_cons.mp h with rfl | h
        · assumption
        · intro hmem
          exact ih _ h (List.mem_cons_of_mem _ hmem)

/-- The ids of the first-per-id filter output are pairwise distinct. -/
theorem dedupGo_nodup_ids (seen : List String) (l : List FieldRecord) :
    ((dedupGo seen l).map (fun f => f.field_id)).Nodup := by
  induction l generalizing seen with
  | nil => simp [dedupGo]
  | cons f fs ih =>
      simp only [dedupGo]
      split
      · exact ih seen
      · rw [List.map_cons, List.nodup_cons]
        refine ⟨fun hmem => ?_, ih _⟩
        obtain ⟨r, hr, hid⟩ := List.mem_map.mp hmem
        exact dedupGo_not_seen _ _ _ hr (by rw [hid]; exact List.mem_cons_self _ _)

/-- Every unseen id present in the input has a representative in the
first-per-id filter output. -/
theorem dedupGo_exists (seen : List String) (l : List FieldRecord) (x : FieldRecord)
    (hx : x ∈ l) (hs : x.field_id ∉ seen) :
    ∃ r ∈ dedupGo seen l, r.field_id = x.field_id := by
  induction l generalizing seen with
  | nil => simp at hx
  | cons f fs ih =>
      simp only [dedupGo]
      rcases List.mem_cons.mp hx with heq | hx
      · split
        · next hmem =>
            rw [heq] at hs
            exact absurd hmem hs
        · exact ⟨f, List.mem_cons_self _ _, by rw [heq]⟩
      · split
        · next hmem =>
            by_cases hfx : x.field_id = f.field_id
            · exact absurd (hfx ▸ hmem) hs
            · exact ih seen hx hs
        · next hmem =>
            by_cases hfx : x.field_id = f.field_id
            · exact ⟨f, List.mem_cons_self _ _, hfx.symm⟩
            · obtain ⟨r, hr, hid⟩ := ih (f.field_id :: seen) hx
                (by simp only [List.mem_cons]; tauto)
              exact ⟨r, List.mem_cons_of_mem f hr, hid⟩

/-- In a Parameters-rank-sorted list, if some record with id `X` has rank
`0`, then every kept record with id `X` has rank `0`. -/
theorem dedupGo_param_first (l : List FieldRecord) (X : String)
    (hsort : List.Pairwise (fun a b => paramRank a ≤ paramRank b) l)
    (p : FieldRecord) (hp : p ∈ l) (hpid : p.field_id = X) (hprank : paramRank p = 0) :
    ∀ seen, ∀ r ∈ dedupGo seen l, r.field_id = X → paramRank r = 0 := by
  induction l with
  | nil => simp at hp
  | cons f fs ih =>
      rw [List.pairwise_cons] at hsort
      obtain ⟨hf, hfs⟩ := hsort
      intro seen r hr hrid
      simp only [dedupGo] at hr
      split at hr
      · next hmem =>
          rcases List.mem_cons.mp hp with rfl | hp2
          · exact absurd hrid.symm (by
              intro heq
              have := dedupGo_not_seen _ _ _ hr
              rw [hrid, ← hpid] at this
              exact this (hpid ▸ hmem))
          · exact ih hfs hp2 seen r hr hrid
      · rcases List.mem_cons.mp hr with rfl | hr2
        · rcases List.mem_cons.mp hp with rfl | hp2
          · exact hprank
          · have := hf p hp2
            omega
        · rcases List.mem_cons.mp hp with rfl | hp2
          · have hne := dedupGo_not_seen _ _ _ hr2
            rw [hrid, ← hpid] at hne
            simp at hne
          · exact ih hfs hp2 _ r hr2 hrid

/-- In a counter-sorted list the kept record per id carries the smallest
counter among records with that id. -/
theorem dedupGo_min_counter (l : List FieldRecord)
    (hsort : List.Pairwise (fun a b => a.counter ≤ b.counter) l) :
    ∀ seen, ∀ r ∈ dedupGo seen l, ∀ x ∈ l, x.field_id = r.field_id →
      r.counter ≤ x.counter := by
  induction l with
  | nil => simp
  | cons f fs ih =>
      rw [List.pairwise_cons] at hsort
      obtain ⟨hf, hfs⟩ := hsort
      intro seen r hr x hx hxid
      simp only [dedupGo] at hr
      split at hr
      · next hmem =>
          rcases List.mem_cons.mp hx with rfl | hx2
          · have := dedupGo_not_seen _ _ _ hr
            rw [← hxid] at this
            exact absurd hmem this
          · exact ih hfs seen r hr x hx2 hxid
      · rcases List.mem_cons.mp hr with rfl | hr2
        · rcases List.mem_cons.mp hx with rfl | hx2
          · exact le_refl _
          · exact hf x hx2
        · rcases List.mem_cons.mp hx with rfl | hx2
          · have hne := dedupGo_not_seen _ _ _ hr2
            rw [← hxid] at hne
            simp at hne
          · exact ih hfs _ r hr2 x hx2 hxid

/-- The closure loop only appends records. -/
theorem closureGo_mono (rels : List Edge) :
    ∀ (fs : List FieldRecord) (c : Nat) (f : FieldRecord), f ∈ fs →
      f ∈ (closureGo fs c rels).1 := by
  induction rels with
  | nil => intro fs c f hf; exact hf
  | cons rel rest ih =>
      intro fs c f hf
      simp only [closureGo]
      split
      · exact ih fs c f hf
      · exact ih _ _ f (List.mem_append_left _ hf)

/-- After the closure loop, every processed edge's `from` value is the
caption of some record in the resulting field list. -/
theorem closureGo_from_exists (rels : List Edge) :
    ∀ (fs : List FieldRecord) (c : Nat) (rel : Edge), rel ∈ rels →
      ∃ f ∈ (closureGo fs c rels).1, f.field_caption = rel.efrom := by
  induction rels with
  | nil => intro fs c rel h; simp at h
  | cons rel0 rest ih =>
      intro fs c rel hrel
      rcases List.mem_cons.mp hrel with rfl | hrel
      · simp only [closureGo]
        split
        · next hany =>
            rw [List.any_eq_true] at hany
            obtain ⟨f, hf, hcap⟩ := hany
            rw [beq_iff_eq] at hcap
            exact ⟨f, closureGo_mono rest _ _ f hf, hcap⟩
        · refine ⟨syntheticRec rel.efrom c, ?_, rfl⟩
          exact closureGo_mono rest _ _ _ (List.mem_append_right _ (List.mem_singleton_self _))
      · simp only [closureGo]
        split
        · exact ih fs c rel hrel
        · exact ih _ _ rel hrel

/-- When an edge's `from` value is the caption of no initial record, the
closure loop materializes a synthetic Unknown/Default record for it with a
counter at least the loop's starting counter. -/
theorem closureGo_synth (rels : List Edge) :
    ∀ (fs : List FieldRecord) (c : Nat) (rel : Edge), rel ∈ rels →
      (∀ f ∈ fs, f.field_caption ≠ rel.efrom) →
      ∃ f ∈ (closureGo fs c rels).1, f.field_caption = rel.efrom ∧
        f.datasource = some "Unknown" ∧ f.category = "Default_Field" ∧ c ≤ f.counter := by
  induction rels with
  | nil => intro fs c rel h; simp at h
  | cons rel0 rest ih =>
      intro fs c rel hrel hnone
      simp only [closureGo]
      rcases List.mem_cons.mp hrel with rfl | hrel
      · split
        · next hany =>
            rw [List.any_eq_true] at hany
            obtain ⟨f, hf, hcap⟩ := hany
            rw [beq_iff_eq] at hcap
            exact absurd hcap (hnone f hf)
        · refine ⟨syntheticRec rel.efrom c, ?_, rfl, rfl, rfl, le_refl c⟩
          exact closureGo_mono rest _ _ _ (List.mem_append_right _ (List.mem_singleton_self _))
      · split
        · exact ih fs c rel hrel hnone
        · next hany =>
            by_cases hsame : rel0.efrom = rel.efrom
            · refine ⟨syntheticRec rel0.efrom c, ?_, hsame, rfl, rfl, le_refl c⟩
              exact closureGo_mono rest _ _ _
                (List.mem_append_right _ (List.mem_singleton_self _))
            · obtain ⟨f, hf, hcap, hds, hcat, hc⟩ := ih (fs ++ [syntheticRec rel0.efrom c])
                (c + 1) rel hrel (fun f hf => by
                  rcases List.mem_append.mp hf with hf | hf
                  · exact hnone f hf
                  · rcases List.mem_singleton.mp hf with rfl
                    exact hsame)
              exact ⟨f, hf, hcap, hds, hcat, by omega⟩

/-- Every field of the closure output is an initial field or a synthetic
record created at a counter at least the starting counter. -/
theorem closureGo_cases (rels : List Edge) :
    ∀ (fs : List FieldRecord) (c : Nat) (f : FieldRecord),
      f ∈ (closureGo fs c rels).1 →
      f ∈ fs ∨ ∃ nm c2, c ≤ c2 ∧ f = syntheticRec nm c2 := by
  induction rels with
  | nil => intro fs c f hf; exact Or.inl hf
  | cons rel rest ih =>
      intro fs c f hf
      simp only [closureGo] at hf
      split at hf
      · exact ih fs c f hf
      · rcases ih _ _ f hf with hmem | ⟨nm, c2, hc2, heq⟩
        · rcases List.mem_append.mp hmem with hmem | hmem
          · exact Or.inl hmem
          · rcases List.mem_singleton.mp hmem with rfl
            exact Or.inr ⟨rel.efrom, c, le_refl c, rfl⟩
        · exact Or.inr ⟨nm, c2, by omega, heq⟩

/-- Every edge produced by one record points at that record's caption. -/
theorem relsOf_to (f : FieldRecord) (e : Edge) (he : e ∈ relsOf f) :
    e.eto = f.field_caption := by
  unfold relsOf at he
  split at he
  · split at he
    · simp at he
    · obtain ⟨d, _, heq⟩ := List.mem_map.mp he
      rw [← heq]
  · simp at he

/-- Every edge of a mapped-and-flattened edge list points at the caption of
one of the generating records. -/
theorem rels_to_exists (l : List FieldRecord) (e : Edge)
    (he : e ∈ (l.map relsOf).flatten) : ∃ f ∈ l, e.eto = f.field_caption := by
  rw [List.mem_flatten] at he
  obtain ⟨es, hes, hee⟩ := he
  obtain ⟨f, hf, heq⟩ := List.mem_map.mp hes
  exact ⟨f, hf, relsOf_to f e (heq ▸ hee)⟩

/-- The rewrite step changes nothing but `field_calculation`. -/
theorem rewriteField_frame (m : List (String × String)) (f : FieldRecord) :
    eraseCalc (rewriteField m f) = eraseCalc f := by
  unfold rewriteField
  split
  · split
    · rfl
    · rfl
  · rfl

/-- The rewrite step keeps `field_id`. -/
theorem rewriteField_id (m : List (String × String)) (f : FieldRecord) :
    (rewriteField m f).field_id = f.field_id := by
  have h := congrArg FieldRecord.field_id (rewriteField_frame m f)
  exact h

/-- The rewrite step keeps `datasource_name`. -/
theorem rewriteField_dsname (m : List (String × String)) (f : FieldRecord) :
    (rewriteField m f).datasource_name = f.datasource_name := by
  have h := congrArg FieldRecord.datasource_name (rewriteField_frame m f)
  exact h

/-- The rewrite step keeps `field_calculation_bk`. -/
theorem rewriteField_bk (m : List (String × String)) (f : FieldRecord) :
    (rewriteField m f).field_calculation_bk = f.field_calculation_bk := by
  have h := congrArg FieldRecord.field_calculation_bk (rewriteField_frame m f)
  exact h

/-- Every record of the column loop output is inherited or built by
`collectColumn` with the loop's datasource arguments. -/
theorem collectColumns_mem (dsName dsCaption : String) (isP : Bool) :
    ∀ (cols : List ColumnElem) (acc : List FieldRecord) (c : Nat) (r : FieldRecord),
      r ∈ (collectColumns dsName dsCaption isP cols acc c).1 →
      r ∈ acc ∨ ∃ c2 col, col ∈ cols ∧ r = collectColumn dsName dsCaption isP c2 col
  | [], _, _, _, h => Or.inl h
  | col :: rest, acc, c, r, h => by
      rcases collectColumns_mem dsName dsCaption isP rest _ _ r h with hacc | ⟨c2, col2, hmem, heq⟩
      · rcases List.mem_append.mp hacc with h2 | h2
        · exact Or.inl h2
        · rcases List.mem_singleton.mp h2 with rfl
          exact Or.inr ⟨c, col, List.mem_cons_self _ _, rfl⟩
      · exact Or.inr ⟨c2, col2, List.mem_cons_of_mem _ hmem, heq⟩

/-- Every record of the param loop output is inherited or built by
`collectParam` with the loop's datasource arguments. -/
theorem collectParams_mem (dsName dsCaption : String) :
    ∀ (ps : List ParamElem) (acc : List FieldRecord) (c : Nat) (r : FieldRecord),
      r ∈ (collectParams dsName dsCaption ps acc c).1 →
      r ∈ acc ∨ ∃ c2 p2, p2 ∈ ps ∧ r = collectParam dsName dsCaption c2 p2
  | [], _, _, _, h => Or.inl h
  | p :: rest, acc, c, r, h => by
      simp only [collectParams] at h
      split at h
      · rcases collectParams_mem dsName dsCaption rest _ _ r h with hacc | ⟨c2, p2, hmem, heq⟩
        · exact Or.inl hacc
        · exact Or.inr ⟨c2, p2, List.mem_cons_of_mem _ hmem, heq⟩
      · rcases collectParams_mem dsName dsCaption rest _ _ r h with hacc | ⟨c2, p2, hmem, heq⟩
        · rcases List.mem_append.mp hacc with h2 | h2
          · exact Or.inl h2
          · rcases List.mem_singleton.mp h2 with rfl
            exact Or.inr ⟨c, p, List.mem_cons_self _ _, rfl⟩
        · exact Or.inr ⟨c2, p2, List.mem_cons_of_mem _ hmem, heq⟩

/-- Every record of one datasource's walk is inherited, a column record, or
a param record of that datasource. -/
theorem collectDatasource_mem (ds : DatasourceElem) (acc : List FieldRecord) (c : Nat)
    (r : FieldRecord) (h : r ∈ (collectDatasource ds acc c).1) :
    r ∈ acc ∨
      (∃ c2 col, col ∈ ds.columns ∧
        r = collectColumn (jsOr ds.name "Unknown Datasource")
          (jsOr ds.caption (jsOr ds.name "Unknown Datasource"))
          (lcStr (jsOr ds.name "Unknown Datasource") == "parameters") c2 col) ∨
      (∃ c2 p2, p2 ∈ ds.params ∧
        r = collectParam (jsOr ds.name "Unknown Datasource")
          (jsOr ds.caption (jsOr ds.name "Unknown Datasource")) c2 p2) := by
  simp only [collectDatasource] at h
  split at h
  · rcases collectParams_mem _ _ _ _ _ r h with hcols | ⟨c2, p2, hmem, heq⟩
    · rcases collectColumns_mem _ _ _ _ _ _ r hcols with hacc | ⟨c2, col, hmem, heq⟩
      · exact Or.inl hacc
      · exact Or.inr (Or.inl ⟨c2, col, hmem, heq⟩)
    · exact Or.inr (Or.inr ⟨c2, p2, hmem, heq⟩)
  · rcases collectColumns_mem _ _ _ _ _ _ r h with hacc | ⟨c2, col, hmem, heq⟩
    · exact Or.inl hacc
    · exact Or.inr (Or.inl ⟨c2, col, hmem, heq⟩)

/-- Every raw record of a tree is a column record or a param record of one
of its datasources. -/
theorem rawFields_origin (t : TwbTree) (r : FieldRecord) (hr : r ∈ rawFields t) :
    (∃ nm cap isP c2 col, r = collectColumn nm cap isP c2 col) ∨
      (∃ nm cap c2 p2, r = collectParam nm cap c2 p2) := by
  suffices h : ∀ (u : TwbTree) (st : List FieldRecord × Nat),
      (∀ x ∈ st.1, (∃ nm cap isP c2 col, x = collectColumn nm cap isP c2 col) ∨
        (∃ nm cap c2 p2, x = collectParam nm cap c2 p2)) →
      ∀ x ∈ (u.foldl (fun st ds => collectDatasource ds st.1 st.2) st).1,
        (∃ nm cap isP c2 col, x = collectColumn nm cap isP c2 col) ∨
        (∃ nm cap c2 p2, x = collectParam nm cap c2 p2) by
    exact h t ([], 0) (by simp) r hr
  intro u
  induction u with
  | nil => intro st hst x hx; exact hst x hx
  | cons ds rest ih =>
      intro st hst x hx
      refine ih (collectDatasource ds st.1 st.2) ?_ x hx
      intro y hy
      rcases collectDatasource_mem ds st.1 st.2 y hy with hacc | hcol | hparam
      · exact hst y hacc
      · obtain ⟨c2, col, _, heq⟩ := hcol
        exact Or.inl ⟨_, _, _, c2, col, heq⟩
      · obtain ⟨c2, p2, _, heq⟩ := hparam
        exact Or.inr ⟨_, _, c2, p2, heq⟩

/-- At creation, the original-formula backup equals the formula: both are
set from the same `<calculation>` attribute. -/
theorem rawFields_creation (t : TwbTree) (r : FieldRecord) (hr : r ∈ rawFields t) :
    r.field_calculation_bk = r.field_calculation := by
  rcases rawFields_origin t r hr with ⟨nm, cap, isP, c2, col, rfl⟩ | ⟨nm, cap, c2, p2, rfl⟩
  · rfl
  · rfl

/-- C5: On the Scenario A input, `extractDataFromTwb` returns exactly 3
fields; the `Sales` and `Cost` fields are Default fields, the
`Profit Ratio` field is a Calculated field whose rewritten formula equals
the original `[Sales]/[Cost]`; and the relationships list is exactly the
two edges Sales→Profit Ratio and Cost→Profit Ratio (in that order). -/
theorem scenarioA_extraction :
    (extractDataFromTwb scenarioA).fields.length = 3 ∧
    (∀ f ∈ (extractDataFromTwb scenarioA).fields,
      (f.field_caption = some "Sales" → f.category = "Default_Field") ∧
      (f.field_caption = some "Cost" → f.category = "Default_Field") ∧
      (f.field_caption = some "Profit Ratio" →
        f.category = "Calculated_Field" ∧
        f.field_calculation = some "[Sales]/[Cost]" ∧
        f.field_calculation_bk = some "[Sales]/[Cost]")) ∧
    (extractDataFromTwb scenarioA).relationships =
      [⟨some "Sales", some "Profit Ratio"⟩, ⟨some "Cost", some "Profit Ratio"⟩] := by
  refine ⟨by decide, ?_, by decide⟩
  decide

/-- C6 counterexample: on `treeDupId` the returned field list holds two
records with id `[x]` — the declared field `[x]` (caption `xcap`) and the
synthetic placeholder for the stray token `[x]` that the rewriter created
out of the bracket-containing caption `x]z`. -/
theorem final_ids_not_unique_cex :
    ¬ (((extractDataFromTwb treeDupId).fields.map (fun f => f.field_id)).Nodup) := by
  decide

/-- C6 (amended): after deduplication the id is unique — no two records of
the deduplicated (and presentation-sorted) field list share a `field_id`;
the closure loop's synthetic placeholders can break this for the final
list, as `final_ids_not_unique_cex` shows. -/
theorem dedup_ids_unique (t : TwbTree) :
    ((uniqueSorted t).map (fun f => f.field_id)).Nodup := by
  have hperm : (dedupFields t).Perm (uniqueSorted t) :=
    (sortCmp_perm presLe (dedupFields t)).symm
  exact (hperm.map (fun f => f.field_id)).nodup (dedupGo_nodup_ids [] _)

/-- C7: the two dependency-extraction strategies disagree on
`treeDiverge`: the token-scan mode sees only the rewritten reference
`[Pcap]`, while the containment mode matches the original `[A]` against
both the field with id `[A]` (caption `Acap`) and the field with id `A`
(caption `Pcap`). -/
theorem dependency_strategies_diverge :
    extractDependencies (extractDataFromTwb treeDiverge).fields ≠
      analyzeDependencies (extractDataFromTwb treeDiverge).fields
        (extractDataFromTwb treeDiverge).calcs := by
  decide

/-- C2: a record from the datasource named `Parameters` always survives
deduplication over same-id records from other datasources — some record
with the shared id survives and every surviving record with that id is
from `Parameters`; and on the Scenario B input the final field list holds
exactly one `Threshold` entry, with category `Parameters`. -/
theorem parameters_dedup_precedence :
    (∀ (t : TwbTree) (X : String),
      (∃ p ∈ rawFields t, p.field_id = X ∧ p.datasource_name = some "Parameters") →
      (∃ r ∈ dedupFields t, r.field_id = X) ∧
      (∀ r ∈ dedupFields t, r.field_id = X → r.datasource_name = some "Parameters")) ∧
    ((extractDataFromTwb scenarioB).fields.map (fun f => (f.field_caption, f.category)) =
      [(some "Threshold", "Parameters")]) := by
  refine ⟨?_, by decide⟩
  intro t X hex
  obtain ⟨p, hp, hpid, hpds⟩ := hex
  set m := buildCalcMap (rawFields t) with hm
  have hp2 : rewriteField m p ∈ rewrittenFields t := List.mem_map_of_mem _ hp
  have hp2id : (rewriteField m p).field_id = X := by rw [rewriteField_id, hpid]
  have hp2ds : (rewriteField m p).datasource_name = some "Parameters" := by
    rw [rewriteField_dsname, hpds]
  have hp3 : rewriteField m p ∈ sortCmp dedupLe (rewrittenFields t) :=
    (mem_sortCmp dedupLe _ _).mpr hp2
  constructor
  · obtain ⟨r, hr, hrid⟩ := dedupGo_exists [] _ (rewriteField m p) hp3 (by simp)
    exact ⟨r, hr, by rw [hrid, hp2id]⟩
  · intro r hr hrid
    have hsort : List.Pairwise (fun a b => paramRank a ≤ paramRank b)
        (sortCmp dedupLe (rewrittenFields t)) :=
      (pairwise_sortCmp dedupLe dedupLe_total dedupLe_trans _).imp
        (fun h => dedupLe_rank _ _ h)
    have hrank0 : paramRank (rewriteField m p) = 0 := by
      unfold paramRank
      rw [if_pos hp2ds]
    have := dedupGo_param_first _ X hsort (rewriteField m p) hp3 hp2id hrank0 [] r hr hrid
    unfold paramRank at this
    by_contra hne
    rw [if_neg hne] at this
    exact absurd this (by omega)

/-- C2 witness: Scenario B instantiates the deduplication-precedence
theorem at the shared id `[Threshold]`. -/
theorem parameters_dedup_precedence_witness :
    (∃ p ∈ rawFields scenarioB, p.field_id = "[Threshold]" ∧
      p.datasource_name = some "Parameters") ∧
    (∀ r ∈ dedupFields scenarioB, r.field_id = "[Threshold]" →
      r.datasource_name = some "Parameters") :=
  ⟨by decide, (parameters_dedup_precedence.1 scenarioB "[Threshold]" (by decide)).2⟩

/-- C9: the rewrite step mutates only `field_calculation`: every record of
the output that carries an original formula traces back to a raw record of
the collection pass agreeing with it in every member except
`field_calculation`, with its `field_calculation_bk` still the raw formula
captured at creation (where backup and formula were set equal). -/
theorem rewrite_frame_original_formula (t : TwbTree) (r : FieldRecord)
    (hr : r ∈ (extractDataFromTwb t).fields) (hbk : r.field_calculation_bk ≠ none) :
    ∃ r0 ∈ rawFields t, eraseCalc r = eraseCalc r0 ∧
      r.field_calculation_bk = r0.field_calculation_bk ∧
      r0.field_calculation_bk = r0.field_calculation := by
  simp only [extractDataFromTwb] at hr
  rcases closureGo_cases _ _ _ r hr with hmem | ⟨nm, c2, _, rfl⟩
  · have h1 : r ∈ dedupFields t := (mem_sortCmp presLe _ r).mp hmem
    have h2 : r ∈ sortCmp dedupLe (rewrittenFields t) := dedupGo_subset [] _ r h1
    have h3 : r ∈ rewrittenFields t := (mem_sortCmp dedupLe _ r).mp h2
    obtain ⟨r0, hr0, heq⟩ := List.mem_map.mp h3
    refine ⟨r0, hr0, ?_, ?_, rawFields_creation t r0 hr0⟩
    · rw [← heq]
      exact rewriteField_frame _ r0
    · rw [← heq]
      exact rewriteField_bk _ r0
  · exact absurd rfl hbk

/-- C9 witness: the Profit-Ratio record of Scenario A instantiates the
frame theorem. -/
theorem rewrite_frame_original_formula_witness :
    profitRatioField ∈ (extractDataFromTwb scenarioA).fields ∧
    ∃ r0 ∈ rawFields scenarioA, eraseCalc profitRatioField = eraseCalc r0 ∧
      profitRatioField.field_calculation_bk = r0.field_calculation_bk ∧
      r0.field_calculation_bk = r0.field_calculation :=
  ⟨by decide,
   rewrite_frame_original_formula scenarioA profitRatioField (by decide) (by decide)⟩

/-- C1: every edge endpoint of the output resolves to the caption of some
returned field, and a `from` value that is the caption of no deduplicated
field is materialized as a synthetic Default record with datasource
`Unknown` and a counter continuing the collection counter. -/
theorem closure_materializes_edge_endpoints (t : TwbTree) (rel : Edge)
    (hrel : rel ∈ (extractDataFromTwb t).relationships) :
    (∃ f ∈ (extractDataFromTwb t).fields, f.field_caption = rel.efrom) ∧
    (∃ f ∈ (extractDataFromTwb t).fields, f.field_caption = rel.eto) ∧
    ((∀ f ∈ uniqueSorted t, f.field_caption ≠ rel.efrom) →
      ∃ f ∈ (extractDataFromTwb t).fields, f.field_caption = rel.efrom ∧
        f.datasource = some "Unknown" ∧ f.category = "Default_Field" ∧
        rawCounter t ≤ f.counter) := by
  simp only [extractDataFromTwb] at hrel ⊢
  refine ⟨closureGo_from_exists _ _ _ rel hrel, ?_, ?_⟩
  · obtain ⟨f, hf, heq⟩ := rels_to_exists _ rel hrel
    exact ⟨f, closureGo_mono _ _ _ f hf, heq.symm⟩
  · intro hnone
    exact closureGo_synth _ _ _ rel hrel hnone

/-- C1 witness: Scenario C instantiates the closure theorem at the edge
for the undeclared identifier `External Metric`. -/
theorem closure_materializes_edge_endpoints_witness :
    (⟨some "External Metric", some "M"⟩ : Edge) ∈
      (extractDataFromTwb scenarioC).relationships ∧
    ((∃ f ∈ (extractDataFromTwb scenarioC).fields,
        f.field_caption = some "External Metric") ∧
     (∃ f ∈ (extractDataFromTwb scenarioC).fields, f.field_caption = some "M") ∧
     ((∀ f ∈ uniqueSorted scenarioC, f.field_caption ≠ some "External Metric") →
       ∃ f ∈ (extractDataFromTwb scenarioC).fields,
         f.field_caption = some "External Metric" ∧
         f.datasource = some "Unknown" ∧ f.category = "Default_Field" ∧
         rawCounter scenarioC ≤ f.counter)) :=
  ⟨by decide,
   closure_materializes_edge_endpoints scenarioC ⟨some "External Metric", some "M"⟩
     (by decide)⟩

/-- C8: attribute access never fails and degrades to defaults: a column or
param element with every attribute missing yields a record whose members
are the documented null/false/synthesized defaults (for any datasource
context and counter), and the whole extraction on a tree of attribute-less
elements returns exactly the default records. -/
theorem missing_attributes_default :
    (∀ (dsName dsCaption : String) (isP : Bool) (c : Nat),
      collectColumn dsName dsCaption isP c emptyColumn =
        ⟨c, some dsName, some dsCaption, none, none, none, none,
         some ("[" ++ ("col_" ++ toString c) ++ "]"), none, none, none, false,
         "[" ++ ("col_" ++ toString c) ++ "]", false, false, false,
         some ("[" ++ ("col_" ++ toString c) ++ "]"), none, none,
         if isP then "Parameters" else "Default_Field"⟩) ∧
    (∀ (dsName dsCaption : String) (c : Nat),
      collectParam dsName dsCaption c emptyParam =
        ⟨c, some dsName, some dsCaption, none, none, none, none, none, none,
         none, none, false, "[null]", false, false, false, none,
         some "parameter", some "quantitative", "Parameters"⟩) ∧
    ((extractDataFromTwb bareTree).fields.map
        (fun f => (f.field_id, f.field_caption, f.field_name, f.field_role,
          f.field_datatype, f.field_desc, f.alias_, f.field_hidden, f.category)) =
      [("[col_1]", some "[col_1]", some "[col_1]", none, none, none, none, false,
        "Parameters"),
       ("[null]", none, none, some "parameter", none, none, none, false,
        "Parameters"),
       ("[col_0]", some "[col_0]", some "[col_0]", none, none, none, none, false,
        "Default_Field")]) := by
  refine ⟨?_, ?_, by rfl⟩
  · intro dsName dsCaption isP c
    cases isP <;> rfl
  · intro dsName dsCaption c
    rfl

/-- C10: a datasource whose name equals `parameters` only case
insensitively still categorizes its columns as `Parameters`, but the
deduplication sort compares against the exact string `"Parameters"`, so
such records get no priority: with no exactly-named Parameters record the
survivor per id is simply the one with the smallest counter — concretely,
on `treeLowerParams` the plain `Sales` record survives over the lowercase
`parameters` one. -/
theorem lowercase_parameters_no_dedup_priority :
    (∀ (ds : DatasourceElem) (acc : List FieldRecord) (c : Nat),
      lcStr (jsOr ds.name "Unknown Datasource") = "parameters" →
      ∀ r ∈ (collectDatasource ds acc c).1, r ∉ acc → r.category = "Parameters") ∧
    (∀ (l : List FieldRecord),
      (∀ r ∈ l, r.datasource_name ≠ some "Parameters") →
      List.Pairwise (fun a b => a.counter ≤ b.counter) l →
      ∀ r ∈ dedupGo [] (sortCmp dedupLe l), ∀ x ∈ l, x.field_id = r.field_id →
        r.counter ≤ x.counter) ∧
    ((dedupFields treeLowerParams).map
        (fun f => (f.datasource_name, f.category, f.counter)) =
      [(some "Sales", "Default_Field", 0)]) := by
  refine ⟨?_, ?_, by decide⟩
  · intro ds acc c hlc r hr hnacc
    rcases collectDatasource_mem ds acc c r hr with hacc | hcol | hparam
    · exact absurd hacc hnacc
    · obtain ⟨c2, col, _, rfl⟩ := hcol
      have hflag : (lcStr (jsOr ds.name "Unknown Datasource") == "parameters") = true := by
        rw [hlc]
        rfl
      rw [hflag]
      rfl
    · obtain ⟨c2, p2, _, rfl⟩ := hparam
      rfl
  · intro l hall hcount r hr x hx hxid
    have hpair : List.Pairwise (fun a b => dedupLe a b = true) l := by
      refine hcount.imp_of_mem ?_
      intro a b ha hb hab
      rw [dedupLe_iff]
      have hra : paramRank a = 1 := by
        unfold paramRank
        rw [if_neg (hall a ha)]
      have hrb : paramRank b = 1 := by
        unfold paramRank
        rw [if_neg (hall b hb)]
      omega
    rw [sortCmp_eq_self dedupLe l hpair] at hr
    exact dedupGo_min_counter l hcount [] r hr x hx hxid

/-- C10 witness: instantiates the category branch at a bare lowercase
`parameters` datasource and the no-priority branch at the raw fields of
`treeLowerParams`. -/
theorem lowercase_parameters_no_dedup_priority_witness :
    (∀ r ∈ (collectDatasource ⟨some "parameters", none, [emptyColumn], []⟩ [] 0).1,
      r ∉ ([] : List FieldRecord) → r.category = "Parameters") ∧
    (∀ r ∈ dedupGo [] (sortCmp dedupLe (rawFields treeLowerParams)),
      ∀ x ∈ rawFields treeLowerParams, x.field_id = r.field_id →
        r.counter ≤ x.counter) :=
  ⟨lowercase_parameters_no_dedup_priority.1 _ [] 0 (by decide),
   lowercase_parameters_no_dedup_priority.2.1 _ (by decide) (by decide)⟩

theorem lcc_lbrack : lcc '[' = '[' := rfl

theorem lcc_rbrack : lcc ']' = ']' := rfl

/-- ASCII lowering maps nothing but `[` to `[`. -/
theorem lcc_ne_lbrack (c : Char) (h : c ≠ '[') : lcc c ≠ '[' := by
  unfold lcc
  split <;> simp_all

/-- ASCII lowering maps nothing but `]` to `]`. -/
theorem lcc_ne_rbrack (c : Char) (h : c ≠ ']') : lcc c ≠ ']' := by
  unfold lcc
  split <;> simp_all

theorem lcL_append (a b : List Char) : lcL (a ++ b) = lcL a ++ lcL b :=
  List.map_append lcc a b

theorem lcL_cons (c : Char) (l : List Char) : lcL (c :: l) = lcc c :: lcL l := rfl

theorem lcL_drop (l : List Char) (n : Nat) : lcL (l.drop n) = (lcL l).drop n :=
  List.map_drop lcc l n

/-- Lowering preserves bracket-freeness. -/
theorem lcL_nobrk (l : List Char) (h : NoBrkL l) : NoBrkL (lcL l) := by
  intro c hc
  obtain ⟨c0, hc0, rfl⟩ := List.mem_map.mp hc
  exact ⟨lcc_ne_lbrack c0 (h c0 hc0).1, lcc_ne_rbrack c0 (h c0 hc0).2⟩

/-- Data of a bracketed-token string. -/
theorem tok_data (k : String) : ("[" ++ k ++ "]").data = '[' :: (k.data ++ [']']) := by
  simp [String.data_append]

/-- Lowered data of a bracketed-token string is the lowered token pattern. -/
theorem lcL_tok (k : String) : lcL (("[" ++ k ++ "]").data) = tokLow k := by
  rw [tok_data, lcL_cons, lcL_append]
  rfl

/-- A token pattern cannot occur inside a bracket-free region followed by
anything it does occur in: occurrences pass through `[`-free prefixes. -/
theorem occ_through_clean (lq : List Char) (hlq : ∃ tl, lq = '[' :: tl) :
    ∀ (mid R : List Char), (∀ ch ∈ mid, ch ≠ '[') → lq <:+: mid ++ R → lq <:+: R := by
  obtain ⟨tl, rfl⟩ := hlq
  intro mid
  induction mid with
  | nil => intro R _ h; exact h
  | cons m ms ih =>
      intro R hmid h
      rcases List.infix_cons_iff.mp h with hpre | hinf
      · obtain ⟨heq, -⟩ := List.cons_prefix_cons.mp hpre
        exact absurd heq.symm (hmid m (List.mem_cons_self _ _))
      · exact ih R (fun ch hch => hmid ch (List.mem_cons_of_mem _ hch)) hinf

/-- A token pattern does not occur in a `[`-free list. -/
theorem occ_clean_false (lq : List Char) (hlq : ∃ tl, lq = '[' :: tl)
    (X : List Char) (hX : ∀ ch ∈ X, ch ≠ '[') (h : lq <:+: X) : False := by
  obtain ⟨tl, hlq2⟩ := hlq
  have := occ_through_clean lq ⟨tl, hlq2⟩ X [] hX (by simpa using h)
  rw [List.infix_nil] at this
  simp [hlq2] at this

/-- Matching a `]`-terminated pattern against a `]`-terminated region
forces the bracket-free parts to coincide. -/
theorem tok_interior_eq :
    ∀ (bf1 bf2 R : List Char), (∀ ch ∈ bf1, ch ≠ ']') → (∀ ch ∈ bf2, ch ≠ ']') →
      bf1 ++ [']'] <+: bf2 ++ ']' :: R → bf1 = bf2
  | [], [], _, _, _, _ => rfl
  | [], b :: bs, R, _, h2, h => by
      obtain ⟨heq, -⟩ := List.cons_prefix_cons.mp h
      exact absurd heq.symm (h2 b (List.mem_cons_self _ _))
  | a :: as, [], R, h1, _, h => by
      obtain ⟨heq, -⟩ := List.cons_prefix_cons.mp h
      exact absurd heq (h1 a (List.mem_cons_self _ _))
  | a :: as, b :: bs, R, h1, h2, h => by
      obtain ⟨heq, hrest⟩ := List.cons_prefix_cons.mp h
      have := tok_interior_eq as bs R (fun ch hch => h1 ch (List.mem_cons_of_mem _ hch))
        (fun ch hch => h2 ch (List.mem_cons_of_mem _ hch)) hrest
      rw [heq, this]

/-- An occurrence of a token pattern in a clean token followed by a rest
either matches the token's interior or lies in the rest. -/
theorem tok_split (kq cp R : List Char) (hkq : NoBrkL kq) (hcp : NoBrkL cp)
    (h : ('[' :: kq ++ [']']) <:+: ('[' :: cp ++ [']']) ++ R) :
    kq = cp ∨ ('[' :: kq ++ [']']) <:+: R := by
  have hshape : ('[' :: cp ++ [']']) ++ R = '[' :: (cp ++ [']'] ++ R) := by simp
  rw [hshape] at h
  rcases List.infix_cons_iff.mp h with hpre | hinf
  · obtain ⟨-, hrest⟩ := List.cons_prefix_cons.mp hpre
    left
    refine tok_interior_eq kq cp R (fun ch hch => (hkq ch hch).2)
      (fun ch hch => (hcp ch hch).2) ?_
    simpa [List.append_assoc] using hrest
  · right
    refine occ_through_clean _ ⟨kq ++ [']'], rfl⟩ (cp ++ [']']) R ?_ (by simpa using hinf)
    intro ch hch
    rcases List.mem_append.mp hch with hch | hch
    · exact (hcp ch hch).1
    · rcases List.mem_singleton.mp hch with rfl
      decide

/-- A dollar-free replacement string passes through the `GetSubstitution`
expansion unchanged. -/
theorem expand_no_dollar (matched before after : List Char) :
    ∀ (l : List Char), (∀ ch ∈ l, ch ≠ '$') →
      expandRepl matched before after l = l
  | [], _ => rfl
  | c :: rest, h => by
      unfold expandRepl
      rw [if_neg (h c (List.mem_cons_self _ _))]
      rw [expand_no_dollar matched before after rest
        (fun ch hch => h ch (List.mem_cons_of_mem _ hch))]

/-- A replacement with no case-insensitive occurrence of its pattern is the
identity, for any fuel and consumed prefix. -/
theorem repl_noop (pat rep : List Char) :
    ∀ (fuel : Nat) (done s : List Char), ¬ (lcL pat <:+: lcL s) →
      replFuel pat rep fuel done s = s
  | 0, _, [], _ => rfl
  | _ + 1, _, [], _ => rfl
  | 0, _, _ :: _, _ => rfl
  | fuel + 1, done, c :: cs, h => by
      have htail : ¬ (lcL pat <:+: lcL cs) := fun hinf =>
        h (List.infix_cons_iff.mpr (Or.inr hinf))
      have hcond : ¬ ((lcL pat).isPrefixOf (lcL (c :: cs)) = true) := by
        rw [ List.isPrefixOf_iff_prefix]
        intro hb
        exact h hb.isInfix
      simp only [replFuel, if_neg hcond]
      rw [repl_noop pat rep fuel (done ++ [c]) cs htail]

/-- A `]`-terminated bracket-free pattern that prefixes the scanner output
prefixes its input: inserted replacements start with `[`. -/
theorem repl_pre (pat rep : List Char) (hrep : ∃ rtl, rep = '[' :: rtl)
    (hnd : ∀ ch ∈ rep, ch ≠ '$') :
    ∀ (fuel : Nat) (done s bf : List Char), (∀ ch ∈ bf, ch ≠ '[') →
      (bf ++ [']']) <+: lcL (replFuel pat rep fuel done s) → (bf ++ [']']) <+: lcL s
  | 0, _, [], _, _, h => h
  | _ + 1, _, [], _, _, h => h
  | 0, _, _ :: _, _, _, h => h
  | fuel + 1, done, c :: cs, bf, hbf, h => by
      obtain ⟨rtl, hrtl⟩ := hrep
      simp only [replFuel] at h
      split at h
      · rw [expand_no_dollar _ _ _ rep hnd] at h
        rw [hrtl, List.cons_append, lcL_cons, lcc_lbrack] at h
        cases bf with
        | nil =>
            rw [List.nil_append] at h
            obtain ⟨heq, -⟩ := List.cons_prefix_cons.mp h
            exact absurd heq (by decide)
        | cons b bs =>
            rw [List.cons_append] at h
            obtain ⟨heq, -⟩ := List.cons_prefix_cons.mp h
            exact absurd heq (hbf b (List.mem_cons_self _ _))
      · rw [lcL_cons] at h
        cases bf with
        | nil =>
            rw [List.nil_append] at h ⊢
            obtain ⟨heq, -⟩ := List.cons_prefix_cons.mp h
            rw [lcL_cons]
            exact List.cons_prefix_cons.mpr ⟨heq, List.nil_prefix⟩
        | cons b bs =>
            rw [List.cons_append] at h ⊢
            obtain ⟨heq, hrest⟩ := List.cons_prefix_cons.mp h
            have := repl_pre pat rep ⟨rtl, hrtl⟩ hnd fuel (done ++ [c]) cs bs
              (fun ch hch => hbf ch (List.mem_cons_of_mem _ hch)) hrest
            rw [lcL_cons]
            exact List.cons_prefix_cons.mpr ⟨heq, this⟩

/-- Core occurrence analysis of the scanner: with a well-formed pattern
`[kp]` and a well-formed inert replacement `[cp]` (its interior not the
scanned identifier `kq`), an occurrence of `[kq]` in the output implies
`kq` differs from the pattern identifier and the occurrence was already in
the input. -/
theorem repl_occ (pat rep kp cp kq : List Char)
    (hpat : lcL pat = '[' :: kp ++ [']']) (hkp : NoBrkL kp)
    (hrepl : lcL rep = '[' :: cp ++ [']']) (hcp : NoBrkL cp)
    (hkq : NoBrkL kq) (hne : cp ≠ kq) (hnd : ∀ ch ∈ rep, ch ≠ '$') :
    ∀ (fuel : Nat) (done s : List Char), s.length ≤ fuel →
      ('[' :: kq ++ [']']) <:+: lcL (replFuel pat rep fuel done s) →
      kq ≠ kp ∧ ('[' :: kq ++ [']']) <:+: lcL s
  | 0, _, [], _, h => by
      have h2 : ('[' :: kq ++ [']']) <:+: ([] : List Char) := h
      rw [List.infix_nil] at h2
      simp at h2
  | _ + 1, _, [], _, h => by
      have h2 : ('[' :: kq ++ [']']) <:+: ([] : List Char) := h
      rw [List.infix_nil] at h2
      simp at h2
  | 0, _, _ :: _, hlen, _ => by simp at hlen
  | fuel + 1, done, c :: cs, hlen, h => by
      have hrepcons : ∃ rtl, rep = '[' :: rtl := by
        have hnn : rep ≠ [] := by
          intro hnil
          rw [hnil] at hrepl
          simp [lcL] at hrepl
        obtain ⟨r0, rtl, hr⟩ := List.exists_cons_of_ne_nil hnn
        rw [hr, lcL_cons] at hrepl
        injection hrepl with h0 h1
        by_cases hbr : r0 = '['
        · exact ⟨rtl, by rw [hr, hbr]⟩
        · exact absurd h0 (lcc_ne_lbrack r0 hbr)
      simp only [replFuel] at h
      split at h
      · next hcond =>
          rw [expand_no_dollar _ _ _ rep hnd] at h
          rw [lcL_append, hrepl] at h
          rcases tok_split kq cp _ hkq hcp h with heq | hinf
          · exact absurd heq.symm hne
          · have hdrop : (cs.drop (pat.length - 1)).length ≤ fuel := by
              have h1 := List.length_drop (pat.length - 1) cs
              simp only [List.length_cons] at hlen
              omega
            obtain ⟨hne2, hocc⟩ := repl_occ pat rep kp cp kq hpat hkp hrepl hcp hkq hne
              hnd fuel (done ++ c :: cs.take (pat.length - 1))
              (cs.drop (pat.length - 1)) hdrop hinf
            refine ⟨hne2, ?_⟩
            rw [lcL_drop] at hocc
            exact List.infix_cons_iff.mpr
              (Or.inr (hocc.trans (List.drop_suffix _ (lcL cs)).isInfix))
      · next hcond =>
          rcases List.infix_cons_iff.mp h with hpre | hinf
          · obtain ⟨heq, hrest⟩ := List.cons_prefix_cons.mp hpre
            have hrest2 : (kq ++ [']']) <+: lcL cs :=
              repl_pre pat rep hrepcons hnd fuel (done ++ [c]) cs kq
                (fun ch hch => (hkq ch hch).1) hrest
            constructor
            · intro hkk
              have hpref : lcL pat <+: lcL (c :: cs) := by
                rw [hpat, ← hkk, lcL_cons]
                exact List.cons_prefix_cons.mpr ⟨heq, hrest2⟩
              rw [← List.isPrefixOf_iff_prefix] at hpref
              simp [hpref] at hcond
            · rw [lcL_cons]
              exact (List.cons_prefix_cons.mpr ⟨heq, hrest2⟩).isInfix
          · have hlen2 : cs.length ≤ fuel := by
              simp only [List.length_cons] at hlen
              omega
            obtain ⟨hne2, hocc⟩ := repl_occ pat rep kp cp kq hpat hkp hrepl hcp hkq hne
              hnd fuel (done ++ [c]) cs hlen2 hinf
            exact ⟨hne2, List.infix_cons_iff.mpr (Or.inr hocc)⟩

/-- A successful map lookup returns a binding of the association list. -/
theorem mapGet_mem (m : List (String × String)) (k v : String)
    (h : mapGet m k = some v) : (k, v) ∈ m := by
  unfold mapGet at h
  cases hf : m.find? (fun p => p.1 == k) with
  | none => rw [hf] at h; simp at h
  | some pr =>
      rw [hf] at h
      simp at h
      have hmem := List.mem_of_find?_eq_some hf
      have hfst := List.find?_some hf
      rw [beq_iff_eq] at hfst
      have hpr : pr = (k, v) := by
        cases pr
        simp_all
      rw [← hpr]
      exact hmem

/-- Lookup of a present key succeeds. -/
theorem mapGet_isSome (m : List (String × String)) (k : String)
    (h : k ∈ m.map (fun p => p.1)) : ∃ v, mapGet m k = some v := by
  obtain ⟨pr, hpr, hfst⟩ := List.mem_map.mp h
  unfold mapGet
  cases hf : m.find? (fun p => p.1 == k) with
  | some pr2 => exact ⟨pr2.2, by rfl⟩
  | none =>
      rw [List.find?_eq_none] at hf
      have hbeq : (pr.1 == k) = true := by rw [hfst]; exact beq_self_eq_true k
      exact absurd hbeq (by simpa using hf pr hpr)

theorem mem_insertLen (x : String) (l : List String) (y : String) :
    y ∈ insertLen x l ↔ y = x ∨ y ∈ l := by
  induction l with
  | nil => simp [insertLen]
  | cons a as ih =>
      simp only [insertLen]
      split
      · exact List.mem_cons
      · rw [List.mem_cons, ih, List.mem_cons]
        tauto

/-- The longest-first key sort preserves membership. -/
theorem mem_sortKeysDesc (l : List String) (y : String) :
    y ∈ sortKeysDesc l ↔ y ∈ l := by
  induction l with
  | nil => simp [sortKeysDesc]
  | cons a as ih =>
      show y ∈ insertLen a (sortKeysDesc as) ↔ _
      rw [mem_insertLen, ih, List.mem_cons]

/-- String-level no-op: a replacement whose bracketed pattern does not
occur leaves the formula unchanged. -/
theorem replaceCI_noop (k rep s : String) (h : ¬ OccTok k s) :
    replaceCI s ("[" ++ k ++ "]") rep = s := by
  unfold replaceCI
  rw [repl_noop]
  rw [lcL_tok]
  exact h

/-- A rewrite step for an identifier that does not occur is a no-op. -/
theorem step_noop (m : List (String × String)) (acc k : String)
    (h : ¬ OccTok k acc) : rewriteStep m acc k = acc := by
  unfold rewriteStep
  split
  · split
    · rfl
    · exact replaceCI_noop k _ acc h
  · rfl

/-- Folding rewrite steps over identifiers none of which occurs is a
no-op. -/
theorem fold_noop (m : List (String × String)) :
    ∀ (ks : List String) (s : String), (∀ k ∈ ks, ¬ OccTok k s) →
      List.foldl (rewriteStep m) s ks = s
  | [], s, _ => rfl
  | k0 :: rest, s, h => by
      simp only [List.foldl_cons]
      rw [step_noop m s k0 (h k0 (List.mem_cons_self _ _))]
      exact fold_noop m rest s (fun k hk => h k (List.mem_cons_of_mem _ hk))

/-- One rewrite step of an inert map neither preserves an occurrence of the
step's own identifier nor creates an occurrence of any identifier. -/
theorem step_occ (m : List (String × String)) (hm : InertMap m) (k q : String)
    (hk : k ∈ m.map (fun p => p.1)) (hq : q ∈ m.map (fun p => p.1))
    (acc : String) (hocc : OccTok q (rewriteStep m acc k)) :
    lcL q.data ≠ lcL k.data ∧ OccTok q acc := by
  obtain ⟨v, hv⟩ := mapGet_isSome m k hk
  have hpair : (k, v) ∈ m := mapGet_mem m k v hv
  obtain ⟨hkbf0, -, c, hceq0, hcbf, hnd0, hcne⟩ := hm (k, v) hpair
  have hkbf : NoBrkS k := hkbf0
  have hceq : v = "[" ++ c ++ "]" := hceq0
  have hnd : ∀ ch ∈ v.data, ch ≠ '$' := hnd0
  obtain ⟨pq, hpq, hqfst⟩ := List.mem_map.mp hq
  have hqbf : NoBrkS q := by
    rw [← hqfst]
    exact (hm pq hpq).1
  have hvne : ¬ (v = "") := by
    rw [hceq]
    intro hemp
    have := congrArg String.data hemp
    rw [tok_data] at this
    simp at this
  unfold rewriteStep at hocc
  rw [hv] at hocc
  simp only [if_neg hvne] at hocc
  unfold OccTok replaceCI at hocc
  have hres := repl_occ (("[" ++ k ++ "]").data) v.data (lcL k.data) (lcL c.data)
    (lcL q.data) (lcL_tok k) (lcL_nobrk _ hkbf)
    (by rw [hceq]; exact lcL_tok c) (lcL_nobrk _ hcbf) (lcL_nobrk _ hqbf)
    (by
      have := hcne pq hpq
      rw [hqfst] at this
      exact this)
    hnd acc.data.length [] acc.data (le_refl _) hocc
  exact hres

/-- Rewrite steps of an inert map never introduce an occurrence of a mapped
identifier into a formula free of it. -/
theorem fold_pres (m : List (String × String)) (hm : InertMap m) (q : String)
    (hq : q ∈ m.map (fun p => p.1)) :
    ∀ (ks : List String) (s : String), (∀ k ∈ ks, k ∈ m.map (fun p => p.1)) →
      ¬ OccTok q s → ¬ OccTok q (List.foldl (rewriteStep m) s ks)
  | [], s, _, h => h
  | k0 :: rest, s, hks, h => by
      simp only [List.foldl_cons]
      refine fold_pres m hm q hq rest (rewriteStep m s k0)
        (fun k hk => hks k (List.mem_cons_of_mem _ hk)) ?_
      intro hocc
      exact h (step_occ m hm k0 q (hks k0 (List.mem_cons_self _ _)) hq s hocc).2

/-- After folding the rewrite steps of an inert map, no processed
identifier occurs in the result. -/
theorem fold_occ (m : List (String × String)) (hm : InertMap m) :
    ∀ (ks : List String) (s : String) (q : String),
      (∀ k ∈ ks, k ∈ m.map (fun p => p.1)) → q ∈ ks →
      ¬ OccTok q (List.foldl (rewriteStep m) s ks)
  | [], _, q, _, hq => by simp at hq
  | k0 :: rest, s, q, hks, hq => by
      simp only [List.foldl_cons]
      by_cases hq2 : q ∈ rest
      · exact fold_occ m hm rest (rewriteStep m s k0) q
          (fun k hk => hks k (List.mem_cons_of_mem _ hk)) hq2
      · rcases List.mem_cons.mp hq with rfl | hq3
        · refine fold_pres m hm q (hks q (List.mem_cons_self _ _)) rest
            (rewriteStep m s q)
            (fun k hk => hks k (List.mem_cons_of_mem _ hk)) ?_
          intro hocc
          exact (step_occ m hm q q (hks q (List.mem_cons_self _ _))
            (hks q (List.mem_cons_self _ _)) s hocc).1 rfl
        · exact absurd hq3 hq2

/-- C3 counterexample: the Formula Rewriter is not idempotent.  With the
map `B ↦ [Z], A ↦ [B]` (keys of equal length, `B` before `A` in insertion
order), one application turns `[A]` into `[B]`, and a second application
turns that into `[Z]`. -/
theorem rewrite_not_idempotent_cex :
    rewriteFormula cexMap (rewriteFormula cexMap "[A]") ≠
      rewriteFormula cexMap "[A]" := by
  decide

/-- C3 (amended): the Formula Rewriter is idempotent for every inert map —
one whose identifiers are bracket-free ASCII strings and whose friendly
names are single well-formed dollar-free bracketed tokens that are not
themselves, case-insensitively, mapped identifiers.
(`rewrite_not_idempotent_cex` shows idempotence fails without the token
proviso: a friendly name that is itself a mapped token is rewritten again
by a second pass.  The dollar-free proviso is needed because a `$` in the
replacement triggers substitution patterns instead of literal text — see
the C4 counterexample — and the ASCII proviso keeps the explicit ASCII
case-folding of the model coextensive with the case-insensitive matching
of the program.) -/
theorem rewrite_idempotent_of_inert (m : List (String × String))
    (hm : InertMap m) (f : String) :
    rewriteFormula m (rewriteFormula m f) = rewriteFormula m f := by
  unfold rewriteFormula
  refine fold_noop m _ _ ?_
  intro k hk
  exact fold_occ m hm _ f k
    (fun k2 hk2 => (mem_sortKeysDesc _ k2).mp hk2) hk

/-- C3 witness: the one-entry inert map `Sales ↦ [Revenue]` on the formula
`[sales]+1`. -/
theorem rewrite_idempotent_of_inert_witness :
    InertMap [("Sales", "[Revenue]")] ∧
    rewriteFormula [("Sales", "[Revenue]")]
        (rewriteFormula [("Sales", "[Revenue]")] "[sales]+1") =
      rewriteFormula [("Sales", "[Revenue]")] "[sales]+1" := by
  have hm : InertMap [("Sales", "[Revenue]")] := by
    intro p hp
    rcases List.mem_singleton.mp hp with rfl
    refine ⟨by decide, by decide, "Revenue", rfl, by decide, by decide, ?_⟩
    intro q hq
    rcases List.mem_singleton.mp hq with rfl
    decide
  exact ⟨hm, rewrite_idempotent_of_inert _ hm "[sales]+1"⟩

/-- The scanner's result does not depend on the fuel, once the fuel covers
the input length. -/
theorem fuel_irrel (pat rep : List Char) :
    ∀ (n m2 : Nat) (done s : List Char), s.length ≤ n → s.length ≤ m2 →
      replFuel pat rep n done s = replFuel pat rep m2 done s
  | 0, 0, _, [], _, _ => rfl
  | 0, _ + 1, _, [], _, _ => rfl
  | _ + 1, 0, _, [], _, _ => rfl
  | _ + 1, _ + 1, _, [], _, _ => rfl
  | 0, _, _, _ :: _, h1, _ => absurd h1 (by simp)
  | _ + 1, 0, _, _ :: _, _, h2 => absurd h2 (by simp)
  | n + 1, m2 + 1, done, c :: cs, h1, h2 => by
      simp only [List.length_cons] at h1 h2
      simp only [replFuel]
      split
      · rw [fuel_irrel pat rep n m2 (done ++ c :: cs.take (pat.length - 1))
          (cs.drop (pat.length - 1))
          (by have := List.length_drop (pat.length - 1) cs; omega)
          (by have := List.length_drop (pat.length - 1) cs; omega)]
      · rw [fuel_irrel pat rep n m2 (done ++ [c]) cs (by omega) (by omega)]

/-- The scanner copies a `[`-free region unchanged and continues behind
it. -/
theorem scan_bf (pat rep : List Char) (hpat : ∃ ptl, lcL pat = '[' :: ptl) :
    ∀ (pre rest : List Char) (fuel : Nat) (done : List Char), (∀ ch ∈ pre, ch ≠ '[') →
      pre.length + rest.length ≤ fuel →
      replFuel pat rep fuel done (pre ++ rest) =
        pre ++ replFuel pat rep rest.length (done ++ pre) rest
  | [], rest, fuel, done, _, hlen => by
      simp only [List.nil_append, List.append_nil]
      exact fuel_irrel pat rep fuel rest.length done rest (by simpa using hlen) (le_refl _)
  | c :: pre2, rest, fuel, done, hbf, hlen => by
      obtain ⟨ptl, hptl⟩ := hpat
      cases fuel with
      | zero => simp at hlen
      | succ fuel =>
          have hcond : ¬ ((lcL pat).isPrefixOf (lcL (c :: (pre2 ++ rest))) = true) := by
            rw [ List.isPrefixOf_iff_prefix, hptl, lcL_cons]
            intro hb
            obtain ⟨heq, -⟩ := List.cons_prefix_cons.mp hb
            exact lcc_ne_lbrack c (hbf c (List.mem_cons_self _ _)) heq.symm
          rw [List.cons_append]
          simp only [replFuel, if_neg hcond]
          rw [scan_bf pat rep ⟨ptl, hptl⟩ pre2 rest fuel (done ++ [c])
            (fun ch hch => hbf ch (List.mem_cons_of_mem _ hch))
            (by simp only [List.length_cons] at hlen; omega)]
          rw [List.append_assoc]
          rfl

/-- Exact replacement: on a formula that is a `[`-free prefix, a single
case-insensitive copy of the pattern token, and a `[`-free suffix, the
scanner substitutes the replacement for the token and leaves the rest
unchanged. -/
theorem repl_exact (pat rep : List Char) (hpat : ∃ ptl, lcL pat = '[' :: ptl)
    (hnd : ∀ ch ∈ rep, ch ≠ '$')
    (pre tk post : List Char) (hpre : ∀ ch ∈ pre, ch ≠ '[')
    (hpost : ∀ ch ∈ post, ch ≠ '[') (htk : lcL tk = lcL pat) (htknn : tk ≠ [])
    (fuel : Nat) (done : List Char) (hfuel : (pre ++ tk ++ post).length ≤ fuel) :
    replFuel pat rep fuel done (pre ++ tk ++ post) = pre ++ rep ++ post := by
  obtain ⟨t0, ttl, rfl⟩ := List.exists_cons_of_ne_nil htknn
  rw [List.append_assoc pre, List.append_assoc pre rep post]
  rw [scan_bf pat rep hpat pre ((t0 :: ttl) ++ post) fuel done hpre
    (by simpa [List.length_append] using hfuel)]
  congr 1
  have hlen : pat.length = ttl.length + 1 := by
    have h1 : (lcL (t0 :: ttl)).length = (lcL pat).length := by rw [htk]
    simp only [lcL, List.length_map, List.length_cons] at h1
    omega
  have hcond : ((lcL pat).isPrefixOf (lcL ((t0 :: ttl) ++ post)) = true) := by
    rw [ List.isPrefixOf_iff_prefix, lcL_append, ← htk]
    exact List.prefix_append _ _
  have hpost2 : ∀ d, replFuel pat rep (ttl ++ post).length d post = post := by
    intro d
    have h2 := scan_bf pat rep hpat post [] (ttl ++ post).length d hpost
      (by simp [List.length_append])
    rw [List.append_nil] at h2
    rw [h2, show replFuel pat rep ([] : List Char).length (d ++ post) ([] : List Char) =
      [] from rfl, List.append_nil]
  show replFuel pat rep ((ttl ++ post).length + 1) (done ++ pre) (t0 :: (ttl ++ post)) =
    rep ++ post
  simp only [replFuel]
  rw [if_pos (by simpa using hcond)]
  rw [expand_no_dollar _ _ _ rep hnd]
  rw [hlen]
  simp only [Nat.add_sub_cancel]
  rw [List.drop_left]
  congr 1
  exact hpost2 _

/-- An occurrence of a key token in a string made of a `[`-free prefix,
one clean token `[c]`, and a `[`-free suffix matches the token: the key is
case-insensitively `c`. -/
theorem occ_sandwich (q pre c post : String) (hq : NoBrkS q) (hpre : NoBrkS pre)
    (hpost : NoBrkS post) (hc : NoBrkS c)
    (hocc : OccTok q (pre ++ ("[" ++ c ++ "]") ++ post)) :
    lcL q.data = lcL c.data := by
  unfold OccTok at hocc
  have hdata : (pre ++ ("[" ++ c ++ "]") ++ post).data =
      pre.data ++ ('[' :: (c.data ++ [']'])) ++ post.data := by
    rw [String.data_append, String.data_append, tok_data]
  rw [hdata, lcL_append, lcL_append] at hocc
  have hmidfix : tokLow q <:+: ('[' :: lcL c.data ++ [']']) ++ lcL post.data := by
    refine occ_through_clean (tokLow q) ⟨lcL q.data ++ [']'], rfl⟩ (lcL pre.data) _
      (fun ch hch => (lcL_nobrk pre.data hpre ch hch).1) ?_
    have hshape : lcL ('[' :: (c.data ++ [']'])) = '[' :: lcL c.data ++ [']'] := by
      rw [lcL_cons, lcL_append, lcc_lbrack]
      rfl
    rw [List.append_assoc, hshape] at hocc
    exact hocc
  rcases tok_split (lcL q.data) (lcL c.data) (lcL post.data)
    (lcL_nobrk _ hq) (lcL_nobrk _ hc) hmidfix with heq | hinf
  · exact heq
  · exact absurd hinf (fun hh => occ_clean_false _ ⟨lcL q.data ++ [']'], rfl⟩ _
      (fun ch hch => (lcL_nobrk post.data hpost ch hch).1) hh)

/-- Equality of ASCII-lowered strings is equality of their lowered data. -/
theorem lcStr_eq_iff (a b : String) : lcStr a = lcStr b ↔ lcL a.data = lcL b.data := by
  constructor
  · intro h
    have h2 := congrArg String.data h
    exact h2
  · intro h
    exact String.ext h

/-- String-level exact replacement of one bracketed token between
bracket-free context. -/
theorem replaceCI_exact (k rep pre tk post : String) (hnd : NoDollarS rep)
    (hpre : NoBrkS pre)
    (hpost : NoBrkS post) (htk : lcL tk.data = lcL ("[" ++ k ++ "]").data)
    (htknn : tk.data ≠ []) :
    replaceCI (pre ++ tk ++ post) ("[" ++ k ++ "]") rep = pre ++ rep ++ post := by
  unfold replaceCI
  have hdata : (pre ++ tk ++ post).data = pre.data ++ tk.data ++ post.data := by
    rw [String.data_append, String.data_append]
  rw [hdata]
  rw [repl_exact (("[" ++ k ++ "]").data) rep.data
    ⟨lcL k.data ++ [']'], by rw [lcL_tok]; rfl⟩ hnd pre.data tk.data post.data
    (fun ch hch => (hpre ch hch).1) (fun ch hch => (hpost ch hch).1) htk htknn
    _ [] (le_refl _)]
  apply String.ext
  rw [String.data_append, String.data_append]

/-- A rewrite step whose key resolves to a nonempty friendly name is the
literal replacement. -/
theorem rewriteStep_get (m : List (String × String)) (acc k rep : String)
    (h : mapGet m k = some rep) (hne : ¬ rep = "") :
    rewriteStep m acc k = replaceCI acc ("[" ++ k ++ "]") rep := by
  unfold rewriteStep
  rw [h]
  show (if rep = "" then acc else replaceCI acc ("[" ++ k ++ "]") rep) = _
  rw [if_neg hne]

/-- Folding the rewriter's steps over a key list containing `Sales Amount`
on a formula `pre ++ [Sales Amount] ++ post` with bracket-free context:
keys not case-equal to `Sales Amount` are no-ops, the `Sales Amount` step
substitutes its friendly name, and later steps leave the result alone. -/
theorem fold_sales (m : List (String × String)) (vsa c : String)
    (hget : mapGet m "Sales Amount" = some vsa)
    (hvsa : vsa = "[" ++ c ++ "]") (hnd : NoDollarS vsa) (hc : NoBrkS c)
    (hcne : ∀ p ∈ m, lcL c.data ≠ lcL p.1.data)
    (huniq : ∀ p ∈ m, lcStr p.1 = lcStr "Sales Amount" → p.1 = "Sales Amount")
    (hkeysbf : ∀ p ∈ m, NoBrkS p.1)
    (pre post : String) (hpre : NoBrkS pre) (hpost : NoBrkS post) :
    ∀ (ks : List String), (∀ k ∈ ks, k ∈ m.map (fun p => p.1)) →
      "Sales Amount" ∈ ks →
      List.foldl (rewriteStep m) (pre ++ "[Sales Amount]" ++ post) ks =
        pre ++ vsa ++ post
  | [], _, hSA => absurd hSA (by simp)
  | k0 :: rest, hks, hSA => by
      have hktok : ("[Sales Amount]" : String) = "[" ++ "Sales Amount" ++ "]" := by decide
      by_cases hlc : lcL k0.data = lcL ("Sales Amount" : String).data
      · have hk0 : k0 = "Sales Amount" := by
          obtain ⟨p0, hp0, hp0fst⟩ := List.mem_map.mp (hks k0 (List.mem_cons_self _ _))
          have := huniq p0 hp0 (by
            rw [lcStr_eq_iff, hp0fst]
            exact hlc)
          rw [← hp0fst, this]
        subst hk0
        simp only [List.foldl_cons]
        have hstep : rewriteStep m (pre ++ "[Sales Amount]" ++ post) "Sales Amount" =
            pre ++ vsa ++ post := by
          have hvne : ¬ (vsa = "") := by
            rw [hvsa]
            intro hemp
            have := congrArg String.data hemp
            rw [tok_data] at this
            simp at this
          rw [rewriteStep_get m _ _ vsa hget hvne]
          rw [hktok]
          exact replaceCI_exact "Sales Amount" vsa pre "[Sales Amount]" post hnd hpre hpost
            (by decide) (by decide)
        rw [hstep]
        refine fold_noop m rest _ ?_
        intro k hk hocc
        obtain ⟨pk, hpk, hpkfst⟩ := List.mem_map.mp (hks k (List.mem_cons_of_mem _ hk))
        have hkbf : NoBrkS k := by rw [← hpkfst]; exact hkeysbf pk hpk
        have heq := occ_sandwich k pre c post hkbf hpre hpost hc (by rwa [← hvsa])
        exact hcne pk hpk (by rw [hpkfst, heq])
      · have hSA2 : "Sales Amount" ∈ rest := by
          rcases List.mem_cons.mp hSA with heq | h2
          · exact absurd (by rw [← heq]) hlc
          · exact h2
        simp only [List.foldl_cons]
        rw [step_noop m _ k0 ?_]
        · exact fold_sales m vsa c hget hvsa hnd hc hcne huniq hkeysbf pre post hpre hpost
            rest (fun k hk => hks k (List.mem_cons_of_mem _ hk)) hSA2
        · intro hocc
          obtain ⟨p0, hp0, hp0fst⟩ := List.mem_map.mp (hks k0 (List.mem_cons_self _ _))
          have hkbf : NoBrkS k0 := by rw [← hp0fst]; exact hkeysbf p0 hp0
          have heq := occ_sandwich k0 pre "Sales Amount" post hkbf hpre hpost
            (by decide) (by rwa [hktok] at hocc)
          exact hlc heq

/-- C4 counterexample: as stated, the longest-match claim is false of the
rewriter.  Each conjunct maps both `Sales` and `Sales Amount` yet the
rewrite of a formula containing the token `[Sales Amount]` does not
substitute the `Sales Amount` friendly name for that token.  (a) a friendly
name containing `$&` is not inserted verbatim: the `$&` expands to the
matched token, so `Sales Amount ↦ [a$&b]` turns `[Sales Amount]` into
`[a[Sales Amount]b]`, not `[a$&b]`; (b) a same-length case-variant key
inserted earlier wins the stable length sort: with `SALES AMOUNT ↦ [X]`
registered before `Sales Amount ↦ [Amt]`, the result is `[X]`, not `[Amt]`;
(c) a longer, bracket-containing key claims the token together with its
context: with `Sales Amount]x ↦ [Y]` also mapped, the formula
`[Sales Amount]x]` becomes `[Y]`, not `[Amt]x]`; (d) a friendly name that
is itself a mapped token is rewritten again by a later step: with
`Sales Amount ↦ [Sales]` and `Sales ↦ [Rev]`, the result is `[Rev]` — the
`Sales` mapping is applied inside the substituted text. -/
theorem longest_match_cex :
    (mapGet cexDollarMap "Sales Amount" = some "[a$&b]" ∧
      rewriteFormula cexDollarMap "[Sales Amount]" = "[a[Sales Amount]b]") ∧
    (mapGet cexDupMap "Sales Amount" = some "[Amt]" ∧
      rewriteFormula cexDupMap "[Sales Amount]" = "[X]") ∧
    (mapGet cexBracketKeyMap "Sales Amount" = some "[Amt]" ∧
      rewriteFormula cexBracketKeyMap "[Sales Amount]x]" = "[Y]") ∧
    (mapGet cexChainMap "Sales Amount" = some "[Sales]" ∧
      rewriteFormula cexChainMap "[Sales Amount]" = "[Rev]") := by
  decide

/-- C4 (amended): for every map of bracket-free ASCII identifiers in which
`Sales` and `Sales Amount` are both mapped, provided the friendly name of
`Sales Amount` is a dollar-free clean token `[c]` whose interior is not
itself, case-insensitively, a mapped identifier and no other identifier is
case-insensitively `Sales Amount`, rewriting a formula consisting of the
token `[Sales Amount]` between bracket-free context substitutes the
`Sales Amount` friendly name for the whole token: the `Sales` mapping is
never applied to it or to any part of it.  Each proviso is necessary — the
corresponding conjunct of `longest_match_cex` refutes the claim without
it. -/
theorem longest_match_precedence (m : List (String × String)) (vsa c pre post : String)
    (hkeys : ∀ p ∈ m, NoBrkS p.1)
    (_hkascii : ∀ p ∈ m, AsciiS p.1)
    (_hsales : "Sales" ∈ m.map (fun p => p.1))
    (hget : mapGet m "Sales Amount" = some vsa)
    (hvsa : vsa = "[" ++ c ++ "]") (hnd : NoDollarS vsa) (hc : NoBrkS c)
    (hcnotkey : ∀ p ∈ m, lcL c.data ≠ lcL p.1.data)
    (huniq : ∀ p ∈ m, lcStr p.1 = lcStr "Sales Amount" → p.1 = "Sales Amount")
    (hpre : NoBrkS pre) (hpost : NoBrkS post) :
    rewriteFormula m (pre ++ "[Sales Amount]" ++ post) = pre ++ vsa ++ post := by
  unfold rewriteFormula
  refine fold_sales m vsa c hget hvsa hnd hc hcnotkey huniq hkeys pre post hpre hpost _
    (fun k hk => (mem_sortKeysDesc _ k).mp hk) ?_
  rw [mem_sortKeysDesc]
  exact List.mem_map.mpr ⟨("Sales Amount", vsa), mapGet_mem m _ _ hget, rfl⟩

/-- C4 witness: the two-entry map `Sales ↦ [Rev], Sales Amount ↦ [Amt]` on
the formula `X+[Sales Amount]*2`. -/
theorem longest_match_precedence_witness :
    (∀ p ∈ [("Sales", "[Rev]"), ("Sales Amount", "[Amt]")], NoBrkS p.1) ∧
    rewriteFormula [("Sales", "[Rev]"), ("Sales Amount", "[Amt]")]
        ("X+" ++ "[Sales Amount]" ++ "*2") = "X+" ++ "[Amt]" ++ "*2" := by
  refine ⟨by decide, ?_⟩
  exact longest_match_precedence [("Sales", "[Rev]"), ("Sales Amount", "[Amt]")]
    "[Amt]" "Amt" "X+" "*2" (by decide) (by decide) (by decide) (by decide) rfl
    (by decide) (by decide) (by decide) (by decide) (by decide) (by decide)
